import Mathlib

/-!
Shallow embedding of the string algorithms of `src/string.rs` (crate `cp-library`):
the Z-function (`z_array`), the cyclic dictionary of basic factors (`DBF`) with its
constructor, `last_row`, `get_repr` and `cmp`, the suffix array (`suffix_array`) and
the Kasai LCP construction (`lcp`).

Conventions of the embedding:
- Rust `Vec<usize>` buffers become `List Nat`; indexed reads become `getl` (read with
  default `0`) and indexed writes become `List.set` (which leaves the list unchanged
  out of bounds; every write performed by the algorithms is proved in bounds).
- Rust `for`/`while` loops become folds or structural recursion on an explicit fuel
  argument; the fuel is always chosen at least as large as the number of iterations
  the loop performs, which is proved in the lemmas below.
- A `Vec` indexing operation that can actually go out of bounds at runtime (the
  write `z[0] = arr.len()` on an empty input, the read `order[0]` on an empty input)
  is modelled by returning `Option.none` in exactly that situation.
- The sentinel wrapper `Option<&T>` (with `None < Some _`) used by `suffix_array`
  is modelled by the sum type `Pad` below with the same order.
-/

/-- Read a `Nat` list at an index, defaulting to `0` (a `Vec<usize>` read). -/
def getl (l : List Nat) (i : Nat) : Nat :=
  l.getD i 0

/-- Three-way comparison of a linear order, as Rust `Ord::cmp`. -/
def cmpOf {α : Type} [LinearOrder α] (a b : α) : Ordering :=
  if a < b then .lt else if a = b then .eq else .gt

/-- Lexicographic three-way comparison of two lists, as Rust `<[T]>::cmp`
(elementwise, a strict prefix being smaller). -/
def lexCmp {α : Type} [LinearOrder α] : List α → List α → Ordering
  | [], [] => .eq
  | [], _ :: _ => .lt
  | _ :: _, [] => .gt
  | a :: as, b :: bs =>
    match cmpOf a b with
    | .eq => lexCmp as bs
    | o => o

/-- Three-way comparison of pairs of naturals, as Rust `(usize, usize)::cmp`. -/
def pairCmpN (p q : Nat × Nat) : Ordering :=
  match cmpOf p.1 q.1 with
  | .eq => cmpOf p.2 q.2
  | o => o

/-- Length of the longest common prefix of two lists, by direct elementwise
comparison (the brute-force oracle of the spec). -/
def lcpLen {α : Type} [DecidableEq α] : List α → List α → Nat
  | a :: as, b :: bs => if a = b then lcpLen as bs + 1 else 0
  | _, _ => 0

/-- The cyclic substring of length `m` of `arr` starting at `i` (indices mod `n`). -/
def cyc {α : Type} [Inhabited α] (arr : List α) (i m : Nat) : List α :=
  (List.range m).map fun t => arr.getD ((i + t) % arr.length) default

/-- The substring `[l, r)` of `arr`. -/
def sliceL {α : Type} (arr : List α) (l r : Nat) : List α :=
  (arr.drop l).take (r - l)

/-- `sumBelow f k = f 0 + f 1 + ⋯ + f (k-1)`; bucket start offsets. -/
def sumBelow (f : Nat → Nat) : Nat → Nat
  | 0 => 0
  | k + 1 => sumBelow f k + f k

/-- Fuelled floor base-2 logarithm; with fuel `≥ x` this is `⌊log₂ x⌋` for `x ≥ 1`,
which is what `63 - x.leading_zeros()` computes in the Rust source. -/
def log2f : Nat → Nat → Nat
  | 0, _ => 0
  | fuel + 1, x => if 2 ≤ x then log2f fuel (x / 2) + 1 else 0

/-- `⌊log₂ x⌋` for `x ≥ 1` (and `0` at `0`): `63 - leading_zeros` of the source. -/
def flog2 (x : Nat) : Nat :=
  log2f x x

/-- Insert into a list sorted by the boolean relation `le`. -/
def insertLe {α : Type} (le : α → α → Bool) (a : α) : List α → List α
  | [] => [a]
  | b :: bs => if le a b then a :: b :: bs else b :: insertLe le a bs

/-- Insertion sort by the boolean relation `le`; models `sort_unstable_by_key`
(the ranks computed from the sorted index list do not depend on how ties are
broken, so any comparison sort is a faithful model). -/
def insSort {α : Type} (le : α → α → Bool) : List α → List α
  | [] => []
  | a :: as => insertLe le a (insSort le as)

/-- One counting pass: `for v in vals { freq[v] += 1 }`. -/
def countFreq (vals freq : List Nat) : List Nat :=
  vals.foldl (fun f v => f.set v (getl f v + 1)) freq

/-- Exclusive prefix sums with accumulator `acc`:
`for i in 0..n { acc += freq[i]; freq[i] = acc - freq[i] }`. -/
def prefixExcl (acc : Nat) : List Nat → List Nat
  | [] => []
  | f :: fs => acc :: prefixExcl (acc + f) fs

/-- Counting-sort placement pass over source `src` with keys `key`:
`for i in src { let e = key i; dest[freq[e]] = i; freq[e] += 1 }`.
The state is the pair `(freq, dest)`. -/
def place (key : Nat → Nat) (src : List Nat) (fd : List Nat × List Nat) :
    List Nat × List Nat :=
  src.foldl (fun fd i =>
    let e := key i
    let p := getl fd.1 e
    (fd.1.set e (p + 1), fd.2.set p i)) fd

/-- Dense-rank assignment along the tail of a sorted position list:
`for i in 1..n { row[order[i]] = row[order[i-1]] + (key(order[i]) != key(order[i-1])) }`.
`prev` is `order[i-1]`, already written into `row`. -/
def rankFold {κ : Type} [DecidableEq κ] (key : Nat → κ) :
    List Nat → Nat → List Nat → List Nat
  | [], _, row => row
  | i :: rest, prev, row =>
    rankFold key rest i
      (row.set i (getl row prev + if key i ≠ key prev then 1 else 0))

/-- Dense-rank assignment over a full sorted position list:
`row[order[0]] = 0` followed by `rankFold` over the tail. -/
def rankAssign {κ : Type} [DecidableEq κ] (key : Nat → κ) (order row : List Nat) :
    List Nat :=
  match order with
  | [] => row
  | o0 :: rest => rankFold key rest o0 (row.set o0 0)

/-- The pair key `(last_row[i], last_row[(i + off) % n])` of the doubling step. -/
def pairKey (lastRow : List Nat) (n off i : Nat) : Nat × Nat :=
  (getl lastRow i, getl lastRow ((i + off) % n))

/-- The body of the doubling loop of `DBF::from`: a radix pass (stable counting
sort by the second pair component, then by the first) followed by dense ranking
of the pair keys.  `lastRow` is both the previous rank row and the current
content of the `row` buffer (the row was pushed as a clone); `order` is the
current content of the `order` buffer.  Returns the new rank row and the new
content of the `order` buffer. -/
def dbfStep (n off : Nat) (lastRow order : List Nat) : List Nat × List Nat :=
  let freq1 := countFreq lastRow (List.replicate n 0)
  let starts1 := prefixExcl 0 freq1
  let pass1 := place (fun i => getl lastRow ((i + off) % n)) (List.range n)
    (starts1, lastRow)
  let row1 := pass1.2
  let freq2 := countFreq lastRow (List.replicate n 0)
  let starts2 := prefixExcl 0 freq2
  let pass2 := place (fun i => getl lastRow i) row1 (starts2, order)
  let order1 := pass2.2
  (rankAssign (pairKey lastRow n off) order1 row1, order1)

/-- The do-while doubling loop of `DBF::from`.  `h` is the level of `lastRow`
(so `off = 2^h`); the loop body runs, pushes the new row, and repeats while
`2^(h+1) < n`.  The fuel bounds the number of iterations; `DBF.build` passes
fuel `n`, which is proved sufficient. -/
def dbfLoop (n : Nat) : Nat → Nat → List Nat → List Nat → List (List Nat)
  | 0, _, _, _ => []
  | fuel + 1, h, lastRow, order =>
    let step := dbfStep n (2 ^ h) lastRow order
    step.1 :: (if 2 ^ (h + 1) < n then dbfLoop n fuel (h + 1) step.1 step.2 else [])

/-- The cyclic dictionary of basic factors, as the Rust struct `DBF`. -/
structure DBF where
  n : Nat
  dbf : List (List Nat)

/-- `DBF::from`: sort the positions by their element, dense-rank them to get
level 0, then run the doubling loop.  On an empty slice the Rust code reads
`order[0]` out of bounds (a panic), modelled by `none`. -/
def DBF.build {α : Type} [LinearOrder α] [Inhabited α] (arr : List α) : Option DBF :=
  let n := arr.length
  let key := fun i => arr.getD i default
  let order := insSort (fun i j => decide (key i ≤ key j)) (List.range n)
  match order with
  | [] => none
  | o0 :: rest =>
    let row0 := rankFold key rest o0 ((List.replicate n 0).set o0 0)
    some ⟨n, row0 :: dbfLoop n n 0 row0 (o0 :: rest)⟩

/-- `DBF::last_row`. -/
def DBF.last_row (d : DBF) : List Nat :=
  d.dbf.getD (d.dbf.length - 1) []

/-- `DBF::get_repr`: with `h = ⌊log₂ (r - l)⌋`, the pair
`(dbf[h][l], dbf[h][(r - 2^h) % n])`. -/
def DBF.get_repr (d : DBF) (l r : Nat) : Nat × Nat :=
  let h := flog2 (r - l)
  (getl (d.dbf.getD h []) l, getl (d.dbf.getD h []) ((r - 2 ^ h) % d.n))

/-- `DBF::cmp`: compare the representatives of the common-length prefixes and
break ties by length. -/
def DBF.cmp (d : DBF) (l1 r1 l2 r2 : Nat) : Ordering :=
  let commonLength := min (r1 - l1) (r2 - l2)
  let repr1 := d.get_repr l1 (l1 + commonLength)
  let repr2 := d.get_repr l2 (l2 + commonLength)
  match pairCmpN repr1 repr2 with
  | .eq => cmpOf (r1 - l1) (r2 - l2)
  | o => o

/-- The sentinel wrapper: `Option<&T>` with `None < Some _`, as built by
`suffix_array` (`arr.iter().map(Some).chain(once(None))`). -/
inductive Pad (α : Type) where
  | none : Pad α
  | some (a : α) : Pad α

instance {α : Type} : Inhabited (Pad α) :=
  ⟨Pad.none⟩

/-- The order of Rust `Option<T> : Ord`: `None` is least, `Some` compares inside. -/
def Pad.le {α : Type} [LinearOrder α] : Pad α → Pad α → Prop
  | .none, _ => True
  | .some _, .none => False
  | .some a, .some b => a ≤ b

instance Pad.decLe {α : Type} [LinearOrder α] : DecidableRel (Pad.le (α := α)) :=
  fun a b =>
    match a, b with
    | .none, _ => isTrue trivial
    | .some _, .none => isFalse id
    | .some a, .some b => inferInstanceAs (Decidable (a ≤ b))

instance Pad.decEq {α : Type} [DecidableEq α] : DecidableEq (Pad α) :=
  fun a b =>
    match a, b with
    | .none, .none => isTrue rfl
    | .none, .some _ => isFalse (by intro h; cases h)
    | .some _, .none => isFalse (by intro h; cases h)
    | .some x, .some y =>
      if h : x = y then isTrue (by rw [h]) else
        isFalse (by intro hc; cases hc; exact h rfl)

instance Pad.linearOrder {α : Type} [LinearOrder α] : LinearOrder (Pad α) where
  le := Pad.le
  le_refl a := by cases a <;> simp [Pad.le]
  le_trans a b c hab hbc := by
    cases a <;> cases b <;> cases c <;> first
      | (simp_all [Pad.le]; done)
      | (simp_all [Pad.le]; exact le_trans hab hbc)
  le_antisymm a b hab hba := by
    cases a <;> cases b <;> simp_all [Pad.le]
    exact le_antisymm hab hba
  le_total a b := by
    cases a <;> cases b <;> simp [Pad.le];
    exact le_total _ _
  decidableLE := Pad.decLe
  decidableEq := Pad.decEq

/-- The concatenation of the key-buckets `0, 1, …, k-1` of `s`: the reference
output of one stable counting-sort pass. -/
def bucketsUpTo (key : Nat → Nat) (s : List Nat) : Nat → List Nat
  | 0 => []
  | k + 1 => bucketsUpTo key s k ++ s.filter (fun i => decide (key i = k))

/-- The number of elements of `l` with key `k`. -/
def cntK (key : Nat → Nat) (l : List Nat) (k : Nat) : Nat :=
  (l.filter (fun i => decide (key i = k))).length

/-- The start offset of bucket `k`: the total size of the buckets below it. -/
def startB (key : Nat → Nat) (s : List Nat) (k : Nat) : Nat :=
  sumBelow (cntK key s) k

/-- The index-inversion loop of `suffix_array`, with the enumeration index
carried explicitly:
`for (i, x) in last_row.iter().enumerate() { if x != 0 { sa[x - 1] = i } }`. -/
def extractGo : List Nat → Nat → List Nat → List Nat
  | [], _, sa => sa
  | x :: rest, i, sa => extractGo rest (i + 1) (if x ≠ 0 then sa.set (x - 1) i else sa)

def extractSA (lastRow : List Nat) (n : Nat) : List Nat :=
  extractGo lastRow 0 (List.replicate n 0)

/-- The inverse-permutation loop of `lcp`, with the enumeration index carried
explicitly: `for (i, x) in suffix_array.iter().enumerate() { inv[x] = i }`. -/
def invGo : List Nat → Nat → List Nat → List Nat
  | [], _, inv => inv
  | x :: rest, t, inv => invGo rest (t + 1) (inv.set x t)

/-- `suffix_array`: build the DBF of the sentinel-padded sequence and invert its
last row.  The padded sequence is never empty, so the `none` branch of
`DBF.build` is unreachable (proved below); it is mapped to `[]`. -/
def suffix_array {α : Type} [LinearOrder α] (arr : List α) : List Nat :=
  let n := arr.length
  let padded : List (Pad α) := arr.map Pad.some ++ [Pad.none]
  match DBF.build padded with
  | Option.none => []
  | Option.some d => extractSA d.last_row n

/-- The matching extension of the Kasai loop:
`while i + k < n && j + k < n && arr[i + k] == arr[j + k] { k += 1 }`.
Fuel `n` is sufficient since `i + k` is strictly increasing and bounded by `n`. -/
def extendEq {α : Type} [DecidableEq α] [Inhabited α] (arr : List α) (n i j : Nat) :
    Nat → Nat → Nat
  | 0, k => k
  | fuel + 1, k =>
    if i + k < n ∧ j + k < n ∧ arr.getD (i + k) default = arr.getD (j + k) default
    then extendEq arr n i j fuel (k + 1)
    else k

/-- The body of the Kasai loop at position `i`, with state `(lcp, k)`. -/
def lcpBody {α : Type} [DecidableEq α] [Inhabited α]
    (arr : List α) (n : Nat) (sa inv : List Nat) (st : List Nat × Nat) (i : Nat) :
    List Nat × Nat :=
  if getl inv i = n - 1 then (st.1, 0)
  else
    let j := getl sa (getl inv i + 1)
    let k1 := extendEq arr n i j n st.2
    (st.1.set (getl inv i + 1) k1, k1 - 1)

/-- `lcp`: the suffix array together with the Kasai LCP array. -/
def lcp {α : Type} [LinearOrder α] [Inhabited α] (arr : List α) :
    List Nat × List Nat :=
  let n := arr.length
  let sa := suffix_array arr
  let inv := invGo sa 0 (List.replicate n 0)
  let res := (List.range n).foldl (lcpBody arr n sa inv) (List.replicate n 0, 0)
  (sa, res.1)

/-- The matching extension of the Z loop:
`while i + z < n && arr[i + z] == arr[z] { z += 1 }`.
Fuel `n` is sufficient since `i + z` is strictly increasing and bounded by `n`. -/
def extendZ {α : Type} [DecidableEq α] [Inhabited α] (arr : List α) (n i : Nat) :
    Nat → Nat → Nat
  | 0, z => z
  | fuel + 1, z =>
    if i + z < n ∧ arr.getD (i + z) default = arr.getD z default
    then extendZ arr n i fuel (z + 1)
    else z

/-- The body of the Z loop at position `i`, with state `(z, l, r)`. -/
def zBody {α : Type} [DecidableEq α] [Inhabited α]
    (arr : List α) (n : Nat) (st : List Nat × Nat × Nat) (i : Nat) :
    List Nat × Nat × Nat :=
  let z := st.1
  let l := st.2.1
  let r := st.2.2
  let z1 := if i ≤ r then z.set i (min (r - i) (getl z (i - l))) else z
  let zi := extendZ arr n i n (getl z1 i)
  let z2 := z1.set i zi
  if i + zi > r then (z2, i, i + zi) else (z2, l, r)

/-- `z_array`.  On an empty input the Rust code performs the out-of-bounds write
`z[0] = arr.len()` on an empty `Vec` (a panic), modelled by `none`. -/
def z_array {α : Type} [DecidableEq α] [Inhabited α] (arr : List α) :
    Option (List Nat) :=
  let n := arr.length
  if n = 0 then Option.none
  else
    let z0 := (List.replicate n 0).set 0 n
    Option.some ((List.range' 1 (n - 1)).foldl (zBody arr n) (z0, 0, 0)).1

/-- The characterizing invariant of a rank row for block length `m`: comparing
two ranks is the same as lexicographically comparing the cyclic substrings of
length `m` at the two positions. -/
def rowIso {α : Type} [Inhabited α] [LinearOrder α] (arr : List α) (m : Nat)
    (row : List Nat) : Prop :=
  ∀ p, p < arr.length → ∀ q, q < arr.length →
    cmpOf (getl row p) (getl row q) = lexCmp (cyc arr p m) (cyc arr q m)

/-- A well-formed rank row for block length `m`: correct length, ranks bounded
by `n`, order-isomorphic to the cyclic substrings of length `m`, and dense
(every value below an attained rank is attained). -/
def rowOK {α : Type} [Inhabited α] [LinearOrder α] (arr : List α) (m : Nat)
    (row : List Nat) : Prop :=
  row.length = arr.length ∧
  (∀ p, p < arr.length → getl row p < arr.length) ∧
  rowIso arr m row ∧
  (∀ q, q < arr.length → ∀ v, v ≤ getl row q → ∃ p, p < arr.length ∧ getl row p = v)

/-! ### Basic lemmas: list reads and writes -/

theorem getl_eq_getElem (l : List Nat) (i : Nat) (h : i < l.length) :
    getl l i = l[i] :=
  List.getD_eq_getElem l 0 h

theorem getl_of_len_le (l : List Nat) (i : Nat) (h : l.length ≤ i) :
    getl l i = 0 := by
  simp [getl, List.getD, List.getElem?_eq_none h]

theorem getl_set_self (l : List Nat) (i v : Nat) (h : i < l.length) :
    getl (l.set i v) i = v := by
  rw [getl_eq_getElem _ _ (by simpa using h)]
  exact List.getElem_set_self _

theorem getl_set_ne (l : List Nat) (i j v : Nat) (h : i ≠ j) :
    getl (l.set i v) j = getl l j := by
  by_cases hj : j < l.length
  · rw [getl_eq_getElem _ _ (by simpa using hj), getl_eq_getElem _ _ hj]
    exact List.getElem_set_ne h _
  · rw [getl_of_len_le _ _ (by simpa using Nat.le_of_not_lt hj),
      getl_of_len_le _ _ (Nat.le_of_not_lt hj)]

theorem getl_replicate (n i : Nat) : getl (List.replicate n 0) i = 0 := by
  by_cases h : i < n
  · rw [getl_eq_getElem _ _ (by simpa using h)]
    exact List.getElem_replicate _ _
  · exact getl_of_len_le _ _ (by simpa using Nat.le_of_not_lt h)

theorem getl_append_left (xs ys : List Nat) (i : Nat) (h : i < xs.length) :
    getl (xs ++ ys) i = getl xs i := by
  rw [getl_eq_getElem _ _ (by simp; omega), getl_eq_getElem _ _ h]
  exact List.getElem_append_left h

theorem getl_append_right (xs ys : List Nat) (i : Nat) (h : i < ys.length) :
    getl (xs ++ ys) (xs.length + i) = getl ys i := by
  rw [getl_eq_getElem _ _ (by simp; omega), getl_eq_getElem _ _ h]
  rw [List.getElem_append_right (by omega)]
  congr 1
  omega

theorem getl_cons_succ (x : Nat) (xs : List Nat) (i : Nat) :
    getl (x :: xs) (i + 1) = getl xs i := rfl

/-! ### Basic lemmas: three-way comparisons -/

theorem cmpOf_eq_iff {α : Type} [LinearOrder α] (a b : α) :
    cmpOf a b = .eq ↔ a = b := by
  unfold cmpOf
  split_ifs with h1 h2
  · simp only [reduceCtorEq, false_iff]
    exact ne_of_lt h1
  · simpa using h2
  · simpa using h2

theorem cmpOf_lt_iff {α : Type} [LinearOrder α] (a b : α) :
    cmpOf a b = .lt ↔ a < b := by
  unfold cmpOf
  split_ifs with h1 h2 <;> simp_all

theorem cmpOf_gt_iff {α : Type} [LinearOrder α] (a b : α) :
    cmpOf a b = .gt ↔ b < a := by
  unfold cmpOf
  split_ifs with h1 h2
  · simp only [reduceCtorEq, false_iff]
    exact not_lt_of_lt h1
  · subst h2
    simp
  · simp only [true_iff]
    exact lt_of_le_of_ne (le_of_not_lt h1) (Ne.symm h2)

theorem cmpOf_self {α : Type} [LinearOrder α] (a : α) : cmpOf a a = .eq := by
  rw [cmpOf_eq_iff]

theorem cmpOf_swap {α : Type} [LinearOrder α] (a b : α) :
    cmpOf a b = .lt ↔ cmpOf b a = .gt := by
  rw [cmpOf_lt_iff, cmpOf_gt_iff]

theorem cmpOf_ne_gt_iff {α : Type} [LinearOrder α] (a b : α) :
    cmpOf a b ≠ .gt ↔ a ≤ b := by
  rw [← not_lt]
  exact not_congr (cmpOf_gt_iff a b)

theorem cmpOf_nat_add_one (a b : Nat) : cmpOf (a + 1) (b + 1) = cmpOf a b := by
  unfold cmpOf
  split_ifs <;> first | rfl | omega

theorem pairCmpN_eq_iff (p q : Nat × Nat) : pairCmpN p q = .eq ↔ p = q := by
  unfold pairCmpN
  rcases p with ⟨a1, b1⟩
  rcases q with ⟨a2, b2⟩
  rcases h : cmpOf a1 a2 with _ | _ | _ <;>
    simp_all [cmpOf_eq_iff, cmpOf_lt_iff, cmpOf_gt_iff, Prod.ext_iff]
  · intro h'
    subst h'
    simp at h
  · intro h'
    subst h'
    simp at h

theorem pairCmpN_swap (p q : Nat × Nat) :
    pairCmpN p q = .lt ↔ pairCmpN q p = .gt := by
  unfold pairCmpN
  rcases p with ⟨a1, b1⟩
  rcases q with ⟨a2, b2⟩
  rcases Nat.lt_trichotomy a1 a2 with h | h | h
  · rw [(cmpOf_lt_iff a1 a2).2 h, (cmpOf_gt_iff a2 a1).2 h]
    simp
  · subst h
    rw [cmpOf_self]
    exact cmpOf_swap b1 b2
  · rw [(cmpOf_gt_iff a1 a2).2 h, (cmpOf_lt_iff a2 a1).2 h]
    simp

theorem pairCmpN_self (p : Nat × Nat) : pairCmpN p p = .eq := by
  rw [pairCmpN_eq_iff]

/-! ### Lemmas on `lexCmp` and `lcpLen` -/

theorem lexCmp_cons_same {α : Type} [LinearOrder α] (a : α) (x y : List α) :
    lexCmp (a :: x) (a :: y) = lexCmp x y := by
  simp [lexCmp, cmpOf_self]

theorem lexCmp_eq_iff {α : Type} [LinearOrder α] (x y : List α) :
    lexCmp x y = .eq ↔ x = y := by
  induction x generalizing y with
  | nil => cases y <;> simp [lexCmp]
  | cons a as ih =>
    cases y with
    | nil => simp [lexCmp]
    | cons b bs =>
      by_cases hab : a = b
      · subst hab
        rw [lexCmp_cons_same]
        simp [ih bs]
      · have hne : cmpOf a b ≠ .eq := fun hc => hab ((cmpOf_eq_iff a b).1 hc)
        rcases hc : cmpOf a b with _ | _ | _
        · simp [lexCmp, hc, hab]
        · exact absurd hc hne
        · simp [lexCmp, hc, hab]

theorem lexCmp_self {α : Type} [LinearOrder α] (x : List α) : lexCmp x x = .eq :=
  (lexCmp_eq_iff x x).2 rfl

theorem lexCmp_append {α : Type} [LinearOrder α] (x1 x2 y1 y2 : List α)
    (h : x1.length = x2.length) :
    lexCmp (x1 ++ y1) (x2 ++ y2) =
      match lexCmp x1 x2 with
      | .eq => lexCmp y1 y2
      | o => o := by
  induction x1 generalizing x2 with
  | nil =>
    have : x2 = [] := by
      cases x2
      · rfl
      · simp at h
    subst this
    simp [lexCmp]
  | cons a as ih =>
    cases x2 with
    | nil => simp at h
    | cons b bs =>
      simp only [List.length_cons, Nat.add_right_cancel_iff] at h
      rcases hc : cmpOf a b with _ | _ | _ <;>
        simp [lexCmp, hc, ih bs h]

theorem le_of_lexCmp_cons_ne_gt {α : Type} [LinearOrder α] {a b : α} {x y : List α}
    (h : lexCmp (a :: x) (b :: y) ≠ .gt) : a ≤ b := by
  rcases hc : cmpOf a b with _ | _ | _
  · exact le_of_lt ((cmpOf_lt_iff a b).1 hc)
  · exact le_of_eq ((cmpOf_eq_iff a b).1 hc)
  · exact absurd (by simp [lexCmp, hc]) h

theorem lcpLen_cons_same {α : Type} [DecidableEq α] (a : α) (x y : List α) :
    lcpLen (a :: x) (a :: y) = lcpLen x y + 1 := by
  simp [lcpLen]

theorem lcpLen_cons_of_ne {α : Type} [DecidableEq α] {a b : α} (x y : List α)
    (hab : a ≠ b) : lcpLen (a :: x) (b :: y) = 0 := by
  simp [lcpLen, hab]

theorem getD_cons_succ {α : Type} (a : α) (l : List α) (n : Nat) (d : α) :
    (a :: l).getD (n + 1) d = l.getD n d := rfl

theorem getD_cons_zero {α : Type} (a : α) (l : List α) (d : α) :
    (a :: l).getD 0 d = a := rfl

theorem lcpLen_le_left {α : Type} [DecidableEq α] (x y : List α) :
    lcpLen x y ≤ x.length := by
  induction x generalizing y with
  | nil => cases y <;> simp [lcpLen]
  | cons a as ih =>
    cases y with
    | nil => simp [lcpLen]
    | cons b bs =>
      by_cases hab : a = b
      · subst hab
        rw [lcpLen_cons_same]
        simpa using ih bs
      · rw [lcpLen_cons_of_ne _ _ hab]
        simp

theorem lcpLen_le_right {α : Type} [DecidableEq α] (x y : List α) :
    lcpLen x y ≤ y.length := by
  induction x generalizing y with
  | nil => cases y <;> simp [lcpLen]
  | cons a as ih =>
    cases y with
    | nil => simp [lcpLen]
    | cons b bs =>
      by_cases hab : a = b
      · subst hab
        rw [lcpLen_cons_same]
        simpa using ih bs
      · rw [lcpLen_cons_of_ne _ _ hab]
        simp

theorem le_lcpLen_iff {α : Type} [DecidableEq α] (x y : List α) (m : Nat) :
    m ≤ lcpLen x y ↔ m ≤ x.length ∧ m ≤ y.length ∧ x.take m = y.take m := by
  induction x generalizing y m with
  | nil =>
    cases y <;> cases m <;> simp [lcpLen]
  | cons a as ih =>
    cases y with
    | nil => cases m <;> simp [lcpLen]
    | cons b bs =>
      cases m with
      | zero => simp
      | succ m' =>
        by_cases hab : a = b
        · subst hab
          rw [lcpLen_cons_same]
          constructor
          · intro hm
            have hih := (ih bs m').1 (by omega)
            refine ⟨by simp; omega, by simp; omega, ?_⟩
            rw [List.take_succ_cons, List.take_succ_cons, hih.2.2]
          · rintro ⟨h1, h2, h3⟩
            rw [List.take_succ_cons, List.take_succ_cons] at h3
            have h3' := List.cons.inj h3
            have := (ih bs m').2 ⟨by simp at h1; omega, by simp at h2; omega, h3'.2⟩
            omega
        · rw [lcpLen_cons_of_ne _ _ hab]
          constructor
          · omega
          · rintro ⟨-, -, h3⟩
            rw [List.take_succ_cons, List.take_succ_cons] at h3
            exact absurd (List.cons.inj h3).1 hab

theorem take_lcpLen_eq {α : Type} [DecidableEq α] (x y : List α) :
    x.take (lcpLen x y) = y.take (lcpLen x y) :=
  (((le_lcpLen_iff x y (lcpLen x y)).1 le_rfl).2).2

theorem lcpLen_stop {α : Type} [DecidableEq α] [Inhabited α] (x y : List α)
    (h1 : lcpLen x y < x.length) (h2 : lcpLen x y < y.length) :
    x.getD (lcpLen x y) default ≠ y.getD (lcpLen x y) default := by
  induction x generalizing y with
  | nil => simp at h1
  | cons a as ih =>
    cases y with
    | nil => simp at h2
    | cons b bs =>
      by_cases hab : a = b
      · subst hab
        rw [lcpLen_cons_same] at h1 h2 ⊢
        rw [getD_cons_succ, getD_cons_succ]
        exact ih bs (by simpa using h1) (by simpa using h2)
      · rw [lcpLen_cons_of_ne _ _ hab]
        rw [getD_cons_zero, getD_cons_zero]
        exact hab

/-- The lexicographic squeeze: if `A ≤ B ≤ C` then `A` shares at least as long
a prefix with `B` as it does with `C`. -/
theorem lcpLen_le_of_between {α : Type} [LinearOrder α] (A B C : List α)
    (hAB : lexCmp A B ≠ .gt) (hBC : lexCmp B C ≠ .gt) :
    lcpLen A C ≤ lcpLen A B := by
  induction A generalizing B C with
  | nil => cases C <;> simp [lcpLen]
  | cons a as ih =>
    cases C with
    | nil => simp [lcpLen]
    | cons c cs =>
      by_cases hac : a = c
      · subst hac
        cases B with
        | nil => exact absurd rfl hAB
        | cons b bs =>
          have hab : a ≤ b := le_of_lexCmp_cons_ne_gt hAB
          have hba : b ≤ a := le_of_lexCmp_cons_ne_gt hBC
          have hbeq : b = a := le_antisymm hba hab
          subst hbeq
          rw [lexCmp_cons_same] at hAB hBC
          rw [lcpLen_cons_same, lcpLen_cons_same]
          exact Nat.add_le_add_right (ih bs cs hAB hBC) 1
      · rw [lcpLen_cons_of_ne _ _ hac]
        simp

/-! ### Lemmas on `sliceL` and `cyc` -/

theorem length_sliceL {α : Type} (arr : List α) (l r : Nat) (h : r ≤ arr.length) :
    (sliceL arr l r).length = r - l := by
  simp only [sliceL, List.length_take, List.length_drop]
  omega

theorem sliceL_append {α : Type} (arr : List α) (l m r : Nat)
    (h1 : l ≤ m) (h2 : m ≤ r) :
    sliceL arr l m ++ sliceL arr m r = sliceL arr l r := by
  unfold sliceL
  have hr : r - l = (m - l) + (r - m) := by omega
  rw [hr, List.take_add, List.drop_drop]
  have hm : l + (m - l) = m := by omega
  rw [hm]

theorem drop_sliceL {α : Type} (arr : List α) (l r k : Nat) :
    (sliceL arr l r).drop k = sliceL arr (l + k) r := by
  unfold sliceL
  rw [List.drop_take, List.drop_drop]
  congr 1
  omega

theorem take_sliceL {α : Type} (arr : List α) (l r k : Nat) (h : k ≤ r - l) :
    (sliceL arr l r).take k = sliceL arr l (l + k) := by
  unfold sliceL
  rw [List.take_take]
  congr 1
  omega

theorem length_cyc {α : Type} [Inhabited α] (arr : List α) (i m : Nat) :
    (cyc arr i m).length = m := by
  simp [cyc]

theorem getElem_cyc {α : Type} [Inhabited α] (arr : List α) (i m t : Nat)
    (h : t < (cyc arr i m).length) :
    (cyc arr i m)[t] = arr.getD ((i + t) % arr.length) default := by
  simp only [cyc, List.getElem_map, List.getElem_range]

theorem cyc_eq_sliceL {α : Type} [Inhabited α] (arr : List α) (p m : Nat)
    (h : p + m ≤ arr.length) :
    cyc arr p m = sliceL arr p (p + m) := by
  apply List.ext_getElem
  · rw [length_cyc, length_sliceL _ _ _ (by omega)]
    omega
  · intro t h1 h2
    rw [getElem_cyc _ _ _ _ h1]
    have htm : t < m := by rwa [length_cyc] at h1
    have hpt : p + t < arr.length := by omega
    rw [Nat.mod_eq_of_lt hpt, List.getD_eq_getElem _ _ hpt]
    simp only [sliceL]
    rw [List.getElem_take, List.getElem_drop]

theorem cyc_split {α : Type} [Inhabited α] (arr : List α) (p a b : Nat) :
    cyc arr p (a + b) = cyc arr p a ++ cyc arr ((p + a) % arr.length) b := by
  unfold cyc
  rw [List.range_add, List.map_append, List.map_map]
  congr 1
  apply List.map_congr_left
  intro t _
  simp only [Function.comp_apply]
  congr 1
  rw [Nat.mod_add_mod]
  congr 1
  omega

theorem take_cyc {α : Type} [Inhabited α] (arr : List α) (p m k : Nat) (h : k ≤ m) :
    (cyc arr p m).take k = cyc arr p k := by
  unfold cyc
  rw [← List.map_take, List.take_range, Nat.min_eq_left h]

/-! ### Lemmas on `sumBelow` and `flog2` -/

theorem sumBelow_succ (f : Nat → Nat) (k : Nat) :
    sumBelow f (k + 1) = sumBelow f k + f k := rfl

theorem sumBelow_mono (f : Nat → Nat) {k k' : Nat} (h : k ≤ k') :
    sumBelow f k ≤ sumBelow f k' := by
  induction k' with
  | zero => simpa using Nat.le_zero.1 h ▸ le_rfl
  | succ m ih =>
    rcases Nat.lt_or_ge k (m + 1) with h' | h'
    · exact le_trans (ih (by omega)) (by rw [sumBelow_succ]; omega)
    · have : k = m + 1 := by omega
      subst this
      exact le_rfl

theorem sumBelow_congr {f g : Nat → Nat} {k : Nat} (h : ∀ j < k, f j = g j) :
    sumBelow f k = sumBelow g k := by
  induction k with
  | zero => rfl
  | succ m ih =>
    rw [sumBelow_succ, sumBelow_succ, ih (fun j hj => h j (by omega)),
      h m (by omega)]

theorem sumBelow_add (f g : Nat → Nat) (k : Nat) :
    sumBelow (fun j => f j + g j) k = sumBelow f k + sumBelow g k := by
  induction k with
  | zero => rfl
  | succ m ih =>
    rw [sumBelow_succ, sumBelow_succ, sumBelow_succ, ih]
    omega

theorem log2f_spec : ∀ (fuel x : Nat), 1 ≤ x → x ≤ fuel →
    2 ^ log2f fuel x ≤ x ∧ x < 2 ^ (log2f fuel x + 1) := by
  intro fuel
  induction fuel with
  | zero => intro x h1 h2; omega
  | succ f ih =>
    intro x h1 h2
    by_cases hx : 2 ≤ x
    · have hhalf := ih (x / 2) (by omega) (by omega)
      simp only [log2f, if_pos hx]
      constructor
      · calc 2 ^ (log2f f (x / 2) + 1) = 2 ^ log2f f (x / 2) * 2 := by ring
          _ ≤ (x / 2) * 2 := by omega
          _ ≤ x := by omega
      · calc x < (x / 2 + 1) * 2 := by omega
          _ ≤ 2 ^ (log2f f (x / 2) + 1) * 2 := by
              have := hhalf.2
              omega
          _ = 2 ^ (log2f f (x / 2) + 1 + 1) := by ring
    · have : x = 1 := by omega
      subst this
      simp [log2f]

theorem flog2_spec (x : Nat) (h : 1 ≤ x) :
    2 ^ flog2 x ≤ x ∧ x < 2 ^ (flog2 x + 1) :=
  log2f_spec x x h le_rfl

/-! ### Insertion sort lemmas -/

theorem insertLe_perm {α : Type} (le : α → α → Bool) (a : α) (l : List α) :
    (insertLe le a l).Perm (a :: l) := by
  induction l with
  | nil => exact List.Perm.refl _
  | cons b bs ih =>
    by_cases h : le a b
    · simp [insertLe, h]
    · simp only [insertLe, if_neg h]
      exact (ih.cons b).trans (List.Perm.swap a b bs)

theorem insSort_perm {α : Type} (le : α → α → Bool) (l : List α) :
    (insSort le l).Perm l := by
  induction l with
  | nil => exact List.Perm.refl _
  | cons a as ih =>
    exact (insertLe_perm le a (insSort le as)).trans (ih.cons a)

theorem insertLe_pairwise {α : Type} (le : α → α → Bool)
    (htot : ∀ a b, le a b = true ∨ le b a = true)
    (htrans : ∀ a b c, le a b = true → le b c = true → le a c = true)
    (a : α) (l : List α) (hl : l.Pairwise (fun x y => le x y = true)) :
    (insertLe le a l).Pairwise (fun x y => le x y = true) := by
  induction l with
  | nil => simp [insertLe]
  | cons b bs ih =>
    rcases hl with _ | ⟨hb, hbs⟩
    by_cases h : le a b
    · simp only [insertLe, if_pos h]
      refine List.Pairwise.cons ?_ (List.Pairwise.cons hb hbs)
      intro x hx
      rcases List.mem_cons.1 hx with rfl | hx
      · exact h
      · exact htrans a b x h (hb x hx)
    · simp only [insertLe, if_neg h]
      have hba : le b a = true := by
        rcases htot a b with h' | h'
        · exact absurd h' h
        · exact h'
      refine List.Pairwise.cons ?_ (ih hbs)
      intro x hx
      have hx' := (insertLe_perm le a bs).mem_iff.1 hx
      rcases List.mem_cons.1 hx' with rfl | hx'
      · exact hba
      · exact hb x hx'

theorem insSort_pairwise {α : Type} (le : α → α → Bool)
    (htot : ∀ a b, le a b = true ∨ le b a = true)
    (htrans : ∀ a b c, le a b = true → le b c = true → le a c = true)
    (l : List α) : (insSort le l).Pairwise (fun x y => le x y = true) := by
  induction l with
  | nil => simp [insSort]
  | cons a as ih => exact insertLe_pairwise le htot htrans a (insSort le as) ih

/-! ### The dense-rank assignment -/

theorem cmpOf_nat_swap_eq (x y : Nat) : cmpOf x y = (cmpOf y x).swap := by
  rcases Nat.lt_trichotomy x y with h | h | h
  · rw [(cmpOf_lt_iff x y).2 h, (cmpOf_gt_iff y x).2 h]
    rfl
  · subst h
    rw [cmpOf_self]
    rfl
  · rw [(cmpOf_gt_iff x y).2 h, (cmpOf_lt_iff y x).2 h]
    rfl

theorem rankFold_spec {κ : Type} [DecidableEq κ] (key : Nat → κ) (c : κ → κ → Ordering)
    (hec : ∀ a b, c a b = .eq ↔ a = b)
    (hswap : ∀ a b, c a b = .lt ↔ c b a = .gt) :
    ∀ (rest : List Nat) (prev : Nat) (row : List Nat),
      (prev :: rest).Nodup →
      (∀ i ∈ prev :: rest, i < row.length) →
      (prev :: rest).Pairwise (fun a b => c (key a) (key b) ≠ .gt) →
      (rankFold key rest prev row).length = row.length ∧
      (∀ p, p ∉ rest → getl (rankFold key rest prev row) p = getl row p) ∧
      (∀ q ∈ prev :: rest, getl row prev ≤ getl (rankFold key rest prev row) q ∧
        getl (rankFold key rest prev row) q ≤ getl row prev + rest.length) ∧
      (∀ p ∈ prev :: rest, ∀ q ∈ prev :: rest,
        cmpOf (getl (rankFold key rest prev row) p) (getl (rankFold key rest prev row) q)
          = c (key p) (key q)) ∧
      (∀ q ∈ prev :: rest, ∀ v, getl row prev ≤ v →
        v ≤ getl (rankFold key rest prev row) q →
        ∃ p ∈ prev :: rest, getl (rankFold key rest prev row) p = v) := by
  have hcswap : ∀ a b, c a b = (c b a).swap := by
    intro a b
    rcases h : c b a with _ | _ | _
    · rw [(hswap b a).1 h]
      rfl
    · rw [(hec a b).2 ((hec b a).1 h).symm]
      rfl
    · rw [(hswap a b).2 h]
      rfl
  intro rest
  induction rest with
  | nil =>
    intro prev row _ _ _
    simp only [rankFold]
    refine ⟨by trivial, fun p _ => by trivial, ?_, ?_, ?_⟩
    · intro q hq
      rcases List.mem_cons.1 hq with hqe | hq
      · rw [hqe]
        simp
      · simp at hq
    · intro p hp q hq
      rcases List.mem_cons.1 hp with hpe | hp
      · rcases List.mem_cons.1 hq with hqe | hq
        · rw [hpe, hqe, cmpOf_self]
          exact ((hec _ _).2 rfl).symm
        · simp at hq
      · simp at hp
    · intro q hq v hv1 hv2
      rcases List.mem_cons.1 hq with hqe | hq
      · rw [hqe] at hv2
        exact ⟨prev, List.mem_cons_self _ _, by omega⟩
      · simp at hq
  | cons i rest' ih =>
    intro prev row hnd hb hpw
    have hprevi : prev ≠ i := by
      intro h
      subst h
      exact (List.nodup_cons.1 hnd).1 (List.mem_cons_self _ _)
    have hiblen : i < row.length := hb i (by simp)
    have hprevlen : prev < row.length := hb prev (by simp)
    set d : Nat := if key i ≠ key prev then 1 else 0 with hd
    set v0 : Nat := getl row prev with hv0
    set row' : List Nat := row.set i (v0 + d) with hrow'
    have hlen' : row'.length = row.length := by rw [hrow', List.length_set]
    have hv1 : getl row' i = v0 + d := by
      rw [hrow']
      exact getl_set_self _ _ _ hiblen
    have hv0' : getl row' prev = v0 := by
      rw [hrow']
      exact getl_set_ne _ _ _ _ (Ne.symm hprevi)
    have hndt : (i :: rest').Nodup := (List.nodup_cons.1 hnd).2
    have hbt : ∀ j ∈ i :: rest', j < row'.length := by
      intro j hj
      rw [hlen']
      exact hb j (List.mem_cons_of_mem _ hj)
    have hpwt : (i :: rest').Pairwise (fun a b => c (key a) (key b) ≠ .gt) :=
      (List.pairwise_cons.1 hpw).2
    have hpi : c (key prev) (key i) ≠ .gt :=
      (List.pairwise_cons.1 hpw).1 i (by simp)
    have hpq : ∀ q ∈ i :: rest', c (key prev) (key q) ≠ .gt :=
      (List.pairwise_cons.1 hpw).1
    obtain ⟨ihlen, ihut, ihrange, ihiso, ihdens⟩ := ih i row' hndt hbt hpwt
    have hunfold : rankFold key (i :: rest') prev row = rankFold key rest' i row' := rfl
    have hfi : getl (rankFold key rest' i row') i = v0 + d := by
      rw [ihut i (List.nodup_cons.1 hndt).1, hv1]
    have hfprev : getl (rankFold key rest' i row') prev = v0 := by
      rw [ihut prev ?_, hv0']
      intro hmem
      exact (List.nodup_cons.1 hnd).1 (List.mem_cons_of_mem _ hmem)
    have hdle : d ≤ 1 := by
      rw [hd]
      split <;> omega
    have hcases : (key i = key prev ∧ d = 0) ∨
        (key i ≠ key prev ∧ d = 1 ∧ c (key prev) (key i) = .lt) := by
      by_cases hk : key i = key prev
      · exact Or.inl ⟨hk, by rw [hd, if_neg (by simpa using hk)]⟩
      · refine Or.inr ⟨hk, by rw [hd, if_pos hk], ?_⟩
        rcases hc : c (key prev) (key i) with _ | _ | _
        · rfl
        · exact absurd ((hec _ _).1 hc).symm hk
        · exact absurd hc hpi
    have hmain : ∀ q ∈ i :: rest',
        cmpOf v0 (getl (rankFold key rest' i row') q) = c (key prev) (key q) := by
      intro q hq
      rcases hcases with ⟨hk, hd0⟩ | ⟨hk, hd1, hlt⟩
      · have hkk : c (key prev) (key q) = c (key i) (key q) := by rw [hk]
        rw [hkk, ← ihiso i (by simp) q hq, hfi, hd0]
        rfl
      · have hcq : c (key prev) (key q) = .lt := by
          rcases List.mem_cons.1 hq with hqe | hq'
          · rw [hqe]
            exact hlt
          · rcases hc : c (key prev) (key q) with _ | _ | _
            · rfl
            · exfalso
              have hkq : key prev = key q := (hec _ _).1 hc
              have h1 : c (key i) (key q) ≠ .gt :=
                (List.pairwise_cons.1 hpwt).1 q hq'
              rw [← hkq] at h1
              exact h1 ((hswap _ _).1 hlt)
            · exact absurd hc (hpq q hq)
        rw [hcq, cmpOf_lt_iff]
        have hge := (ihrange q hq).1
        rw [hv1, hd1] at hge
        omega
    refine ⟨?_, ?_, ?_, ?_, ?_⟩
    · rw [hunfold, ihlen, hlen']
    · intro p hp
      have hpi' : p ≠ i := by
        intro h
        exact hp (h ▸ List.mem_cons_self _ _)
      rw [hunfold, ihut p (fun h => hp (List.mem_cons_of_mem _ h)), hrow',
        getl_set_ne _ _ _ _ (Ne.symm hpi')]
    · intro q hq
      rw [hunfold]
      rcases List.mem_cons.1 hq with hqe | hq
      · rw [hqe, hfprev]
        omega
      · have hr := ihrange q hq
        rw [hv1] at hr
        constructor
        · omega
        · simp only [List.length_cons]
          omega
    · intro p hp q hq
      rw [hunfold]
      rcases List.mem_cons.1 hp with hpe | hp
      · rcases List.mem_cons.1 hq with hqe | hq
        · rw [hpe, hqe, hfprev, cmpOf_self]
          exact ((hec _ _).2 rfl).symm
        · rw [hpe, hfprev]
          exact hmain q hq
      · rcases List.mem_cons.1 hq with hqe | hq
        · rw [hqe, hfprev, cmpOf_nat_swap_eq, hmain p hp, ← hcswap]
        · exact ihiso p hp q hq
    · intro q hq v hvlo hvhi
      rw [hunfold] at hvhi ⊢
      rcases Nat.eq_or_lt_of_le hvlo with hveq | hvlt
      · exact ⟨prev, List.mem_cons_self _ _, by rw [hfprev, ← hveq]⟩
      · rcases List.mem_cons.1 hq with hqe | hq
        · rw [hqe, hfprev] at hvhi
          omega
        · have hv1le : getl row' i ≤ v := by
            rw [hv1]
            omega
          obtain ⟨p, hpmem, hpv⟩ := ihdens q hq v hv1le hvhi
          exact ⟨p, List.mem_cons_of_mem _ hpmem, hpv⟩

theorem rankAssign_spec {κ : Type} [DecidableEq κ] (key : Nat → κ) (c : κ → κ → Ordering)
    (hec : ∀ a b, c a b = .eq ↔ a = b)
    (hswap : ∀ a b, c a b = .lt ↔ c b a = .gt)
    (o0 : Nat) (rest : List Nat) (row : List Nat)
    (hnd : (o0 :: rest).Nodup)
    (hb : ∀ i ∈ o0 :: rest, i < row.length)
    (hpw : (o0 :: rest).Pairwise (fun a b => c (key a) (key b) ≠ .gt)) :
    (rankAssign key (o0 :: rest) row).length = row.length ∧
    (∀ p, p ∉ o0 :: rest → getl (rankAssign key (o0 :: rest) row) p = getl row p) ∧
    (∀ q ∈ o0 :: rest, getl (rankAssign key (o0 :: rest) row) q < (o0 :: rest).length) ∧
    (∀ p ∈ o0 :: rest, ∀ q ∈ o0 :: rest,
      cmpOf (getl (rankAssign key (o0 :: rest) row) p)
        (getl (rankAssign key (o0 :: rest) row) q) = c (key p) (key q)) ∧
    (∀ q ∈ o0 :: rest, ∀ v, v ≤ getl (rankAssign key (o0 :: rest) row) q →
      ∃ p ∈ o0 :: rest, getl (rankAssign key (o0 :: rest) row) p = v) := by
  have ho0 : o0 < row.length := hb o0 (by simp)
  have hb' : ∀ i ∈ o0 :: rest, i < (row.set o0 0).length := by
    intro i hi
    rw [List.length_set]
    exact hb i hi
  obtain ⟨slen, sut, srange, siso, sdens⟩ :=
    rankFold_spec key c hec hswap rest o0 (row.set o0 0) hnd hb' hpw
  have hz : getl (row.set o0 0) o0 = 0 := getl_set_self _ _ _ ho0
  have hassign : rankAssign key (o0 :: rest) row = rankFold key rest o0 (row.set o0 0) := rfl
  rw [hassign]
  refine ⟨by rw [slen, List.length_set], ?_, ?_, ?_, ?_⟩
  · intro p hp
    rw [sut p (fun h => hp (List.mem_cons_of_mem _ h)),
      getl_set_ne _ _ _ _ (fun h => hp (by rw [← h]; exact List.mem_cons_self _ _))]
  · intro q hq
    have := (srange q hq).2
    rw [hz] at this
    simp only [List.length_cons]
    omega
  · exact siso
  · intro q hq v hv
    have := sdens q hq v (by rw [hz]; exact Nat.zero_le v) hv
    exact this

/-! ### Counting passes -/

theorem length_countFreq (vals freq : List Nat) :
    (countFreq vals freq).length = freq.length := by
  induction vals generalizing freq with
  | nil => rfl
  | cons v vals ih =>
    have : countFreq (v :: vals) freq = countFreq vals (freq.set v (getl freq v + 1)) := rfl
    rw [this, ih, List.length_set]

theorem getl_countFreq (vals : List Nat) :
    ∀ (freq : List Nat) (k : Nat), (∀ v ∈ vals, v < freq.length) →
    getl (countFreq vals freq) k = getl freq k + vals.count k := by
  induction vals with
  | nil => intro freq k _; simp [countFreq]
  | cons v vals ih =>
    intro freq k hbound
    have hstep : countFreq (v :: vals) freq = countFreq vals (freq.set v (getl freq v + 1)) := rfl
    have hb' : ∀ w ∈ vals, w < (freq.set v (getl freq v + 1)).length := by
      intro w hw
      rw [List.length_set]
      exact hbound w (List.mem_cons_of_mem _ hw)
    rw [hstep, ih _ _ hb']
    by_cases hvk : v = k
    · subst hvk
      rw [List.count_cons_self, getl_set_self _ _ _ (hbound v (List.mem_cons_self _ _))]
      omega
    · rw [List.count_cons_of_ne (fun h => hvk h.symm), getl_set_ne _ _ _ _ hvk]

theorem length_prefixExcl (acc : Nat) (f : List Nat) :
    (prefixExcl acc f).length = f.length := by
  induction f generalizing acc with
  | nil => rfl
  | cons f0 fs ih => simp [prefixExcl, ih]

theorem sumBelow_shift (g : Nat → Nat) (k : Nat) :
    sumBelow g (k + 1) = g 0 + sumBelow (fun j => g (j + 1)) k := by
  induction k with
  | zero => simp [sumBelow]
  | succ m ih =>
    rw [sumBelow_succ, ih, sumBelow_succ]
    omega

theorem getl_prefixExcl (f : List Nat) :
    ∀ (acc k : Nat), k < f.length →
    getl (prefixExcl acc f) k = acc + sumBelow (fun j => getl f j) k := by
  induction f with
  | nil => intro acc k h; simp at h
  | cons f0 fs ih =>
    intro acc k hk
    cases k with
    | zero => simp [prefixExcl, sumBelow, getl, List.getD]
    | succ k' =>
      have : getl (prefixExcl acc (f0 :: fs)) (k' + 1)
          = getl (prefixExcl (acc + f0) fs) k' := rfl
      rw [this, ih (acc + f0) k' (by simpa using hk)]
      rw [sumBelow_shift]
      have hcongr : sumBelow (fun j => getl (f0 :: fs) (j + 1)) k'
          = sumBelow (fun j => getl fs j) k' :=
        sumBelow_congr (fun j _ => rfl)
      rw [hcongr]
      have h0 : getl (f0 :: fs) 0 = f0 := rfl
      rw [h0]
      omega

/-! ### Bucket concatenation: the reference output of one counting-sort pass -/

theorem pairwiseOfMem {α : Type} {R : α → α → Prop} :
    ∀ (l : List α), (∀ x ∈ l, ∀ y ∈ l, R x y) → l.Pairwise R
  | [], _ => List.Pairwise.nil
  | a :: as, h =>
    List.Pairwise.cons (fun y hy => h a (List.mem_cons_self _ _) y (List.mem_cons_of_mem _ hy))
      (pairwiseOfMem as (fun x hx y hy =>
        h x (List.mem_cons_of_mem _ hx) y (List.mem_cons_of_mem _ hy)))

theorem ext_getl (l1 l2 : List Nat) (hlen : l1.length = l2.length)
    (h : ∀ q, q < l1.length → getl l1 q = getl l2 q) : l1 = l2 := by
  apply List.ext_getElem hlen
  intro q h1 h2
  rw [← getl_eq_getElem _ _ h1, ← getl_eq_getElem _ _ h2]
  exact h q h1

theorem cnt_append (key : Nat → Nat) (l1 l2 : List Nat) (k : Nat) :
    ((l1 ++ l2).filter (fun i => decide (key i = k))).length
      = (l1.filter (fun i => decide (key i = k))).length
        + (l2.filter (fun i => decide (key i = k))).length := by
  rw [List.filter_append, List.length_append]

theorem cnt_singleton (key : Nat → Nat) (i k : Nat) :
    (([i] : List Nat).filter (fun x => decide (key x = k))).length
      = if key i = k then 1 else 0 := by
  by_cases h : key i = k <;> simp [List.filter, h]

theorem length_bucketsUpTo (key : Nat → Nat) (s : List Nat) (k : Nat) :
    (bucketsUpTo key s k).length
      = sumBelow (fun j => (s.filter (fun i => decide (key i = j))).length) k := by
  induction k with
  | zero => rfl
  | succ m ih =>
    simp only [bucketsUpTo, List.length_append, ih, sumBelow_succ]

theorem getl_bucketsUpTo (key : Nat → Nat) (s : List Nat) :
    ∀ (n k m : Nat), k < n →
      m < (s.filter (fun i => decide (key i = k))).length →
      getl (bucketsUpTo key s n)
        (sumBelow (fun j => (s.filter (fun i => decide (key i = j))).length) k + m)
        = getl (s.filter (fun i => decide (key i = k))) m := by
  intro n
  induction n with
  | zero => intro k m h; omega
  | succ n' ih =>
    intro k m hk hm
    rcases Nat.lt_or_ge k n' with hk' | hk'
    · have hpos : sumBelow (fun j => (s.filter (fun i => decide (key i = j))).length) k + m
          < (bucketsUpTo key s n').length := by
        rw [length_bucketsUpTo]
        calc sumBelow (fun j => (s.filter (fun i => decide (key i = j))).length) k + m
            < sumBelow (fun j => (s.filter (fun i => decide (key i = j))).length) (k + 1) := by
              rw [sumBelow_succ]; omega
          _ ≤ sumBelow (fun j => (s.filter (fun i => decide (key i = j))).length) n' :=
              sumBelow_mono _ hk'
      have : bucketsUpTo key s (n' + 1)
          = bucketsUpTo key s n' ++ s.filter (fun i => decide (key i = n')) := rfl
      rw [this, getl_append_left _ _ _ hpos]
      exact ih k m hk' hm
    · have hkn : k = n' := by omega
      subst hkn
      have : bucketsUpTo key s (k + 1)
          = bucketsUpTo key s k ++ s.filter (fun i => decide (key i = k)) := rfl
      rw [this]
      have hlen : (bucketsUpTo key s k).length
          = sumBelow (fun j => (s.filter (fun i => decide (key i = j))).length) k :=
        length_bucketsUpTo key s k
      rw [← hlen]
      exact getl_append_right _ _ _ hm

theorem count_bucketsUpTo (key : Nat → Nat) (s : List Nat) (a : Nat) :
    ∀ (n : Nat), (bucketsUpTo key s n).count a
      = if key a < n then s.count a else 0 := by
  intro n
  induction n with
  | zero => simp [bucketsUpTo]
  | succ m ih =>
    have : bucketsUpTo key s (m + 1)
        = bucketsUpTo key s m ++ s.filter (fun i => decide (key i = m)) := rfl
    rw [this, List.count_append, ih]
    by_cases hm : key a = m
    · have h1 : ¬ (key a < m) := by omega
      have h2 : key a < m + 1 := by omega
      rw [if_neg h1, if_pos h2, List.count_filter (by simpa using hm)]
      omega
    · have hcz : (s.filter (fun i => decide (key i = m))).count a = 0 := by
        rw [List.count_eq_zero]
        intro hmem
        exact hm (by simpa using (List.mem_filter.1 hmem).2)
      rw [hcz]
      by_cases h1 : key a < m
      · rw [if_pos h1, if_pos (by omega)]
        omega
      · rw [if_neg h1, if_neg (by omega)]

theorem perm_bucketsUpTo (key : Nat → Nat) (s : List Nat) (n : Nat)
    (hkeys : ∀ i ∈ s, key i < n) : (bucketsUpTo key s n).Perm s := by
  rw [List.perm_iff_count]
  intro a
  rw [count_bucketsUpTo]
  by_cases h : key a < n
  · rw [if_pos h]
  · rw [if_neg h, eq_comm, List.count_eq_zero]
    intro hmem
    exact h (hkeys a hmem)

theorem bucketsUpTo_key_lt (key : Nat → Nat) (s : List Nat) :
    ∀ (k : Nat) (x : Nat), x ∈ bucketsUpTo key s k → key x < k := by
  intro k
  induction k with
  | zero => intro x h; simp [bucketsUpTo] at h
  | succ m ih =>
    intro x hx
    have : bucketsUpTo key s (m + 1)
        = bucketsUpTo key s m ++ s.filter (fun i => decide (key i = m)) := rfl
    rw [this, List.mem_append] at hx
    rcases hx with hx | hx
    · exact Nat.lt_trans (ih x hx) (Nat.lt_succ_self m)
    · have := (List.mem_filter.1 hx).2
      simp only [decide_eq_true_eq] at this
      omega

theorem pairwise_bucketsUpTo (key : Nat → Nat) (s : List Nat) (R : Nat → Nat → Prop)
    (hwithin : ∀ j, (s.filter (fun i => decide (key i = j))).Pairwise R)
    (hacross : ∀ x y, key x < key y → R x y) :
    ∀ (n : Nat), (bucketsUpTo key s n).Pairwise R := by
  intro n
  induction n with
  | zero => exact List.Pairwise.nil
  | succ m ih =>
    have : bucketsUpTo key s (m + 1)
        = bucketsUpTo key s m ++ s.filter (fun i => decide (key i = m)) := rfl
    rw [this, List.pairwise_append]
    refine ⟨ih, hwithin m, ?_⟩
    intro x hx y hy
    have hky : key y = m := by simpa using (List.mem_filter.1 hy).2
    exact hacross x y (by rw [hky]; exact bucketsUpTo_key_lt key s m x hx)

/-! ### The placement pass of the counting sort -/

theorem startB_succ (key : Nat → Nat) (s : List Nat) (k : Nat) :
    startB key s (k + 1) = startB key s k + cntK key s k := rfl

theorem startB_mono (key : Nat → Nat) (s : List Nat) {k k' : Nat} (h : k ≤ k') :
    startB key s k ≤ startB key s k' :=
  sumBelow_mono _ h

theorem startB_cover (key : Nat → Nat) (s : List Nat) :
    ∀ (n q : Nat), q < startB key s n →
      ∃ k, k < n ∧ ∃ m, m < cntK key s k ∧ q = startB key s k + m := by
  intro n
  induction n with
  | zero => intro q h; simp [startB, sumBelow] at h
  | succ n' ih =>
    intro q hq
    rcases Nat.lt_or_ge q (startB key s n') with h | h
    · obtain ⟨k, hk, m, hm, he⟩ := ih q h
      exact ⟨k, by omega, m, hm, he⟩
    · rw [startB_succ] at hq
      exact ⟨n', by omega, q - startB key s n', by omega, by omega⟩

theorem cntK_append (key : Nat → Nat) (l1 l2 : List Nat) (k : Nat) :
    cntK key (l1 ++ l2) k = cntK key l1 k + cntK key l2 k :=
  cnt_append key l1 l2 k

theorem cntK_cons (key : Nat → Nat) (i : Nat) (l : List Nat) (k : Nat) :
    cntK key (i :: l) k = (if key i = k then 1 else 0) + cntK key l k := by
  have : (i :: l) = [i] ++ l := rfl
  rw [this, cntK_append]
  unfold cntK
  rw [cnt_singleton]

theorem cntK_singleton (key : Nat → Nat) (i k : Nat) :
    cntK key [i] k = if key i = k then 1 else 0 := by
  unfold cntK
  exact cnt_singleton key i k

theorem startB_total (key : Nat → Nat) (s : List Nat) (n : Nat)
    (hkeys : ∀ i ∈ s, key i < n) : startB key s n = s.length := by
  have h1 : (bucketsUpTo key s n).length
      = sumBelow (fun j => (s.filter (fun i => decide (key i = j))).length) n :=
    length_bucketsUpTo key s n
  have h2 : (bucketsUpTo key s n).length = s.length :=
    (perm_bucketsUpTo key s n hkeys).length_eq
  unfold startB cntK
  rw [← h1, h2]

theorem place_go (key : Nat → Nat) (s : List Nat) (n : Nat)
    (hkeys : ∀ i ∈ s, key i < n) (hBn : startB key s n = s.length) :
    ∀ (todo done freq dest : List Nat),
    done ++ todo = s →
    freq.length = n →
    (∀ k, k < n → getl freq k = startB key s k + cntK key done k) →
    dest.length = s.length →
    (∀ k, k < n → ∀ m, m < cntK key done k →
      getl dest (startB key s k + m) = getl (s.filter (fun i => decide (key i = k))) m) →
    (place key todo (freq, dest)).2.length = s.length ∧
    (∀ k, k < n → ∀ m, m < cntK key s k →
      getl (place key todo (freq, dest)).2 (startB key s k + m)
        = getl (s.filter (fun i => decide (key i = k))) m) := by
  intro todo
  induction todo with
  | nil =>
    intro done freq dest hsplit _ _ hdlen hagree
    have hdone : done = s := by rw [← hsplit, List.append_nil]
    subst hdone
    exact ⟨hdlen, hagree⟩
  | cons i todo' ih =>
    intro done freq dest hsplit hflen hfreq hdlen hagree
    have himem : i ∈ s := by
      rw [← hsplit]
      exact List.mem_append_right _ (List.mem_cons_self _ _)
    have he : key i < n := hkeys i himem
    have hp : getl freq (key i) = startB key s (key i) + cntK key done (key i) :=
      hfreq _ he
    have hscnt : ∀ k, cntK key s k = cntK key done k + cntK key (i :: todo') k := by
      intro k
      rw [← hsplit, cntK_append]
    have hcntlt : cntK key done (key i) < cntK key s (key i) := by
      have := hscnt (key i)
      rw [cntK_cons, if_pos rfl] at this
      omega
    have hposlt : getl freq (key i) < s.length := by
      rw [hp, ← hBn]
      calc startB key s (key i) + cntK key done (key i)
          < startB key s (key i) + cntK key s (key i) := by omega
        _ = startB key s (key i + 1) := (startB_succ key s (key i)).symm
        _ ≤ startB key s n := startB_mono key s he
    have hstep : place key (i :: todo') (freq, dest)
        = place key todo' (freq.set (key i) (getl freq (key i) + 1),
            dest.set (getl freq (key i)) i) := rfl
    rw [hstep]
    -- the prefix bound for the new `done`
    have hdonele : ∀ k, cntK key (done ++ [i]) k ≤ cntK key s k := by
      intro k
      have h1 : cntK key s k = cntK key (done ++ [i]) k + cntK key todo' k := by
        rw [← hsplit]
        have : done ++ i :: todo' = (done ++ [i]) ++ todo' := by simp
        rw [this, cntK_append]
      omega
    -- bucket-position disjointness
    have hdisj : ∀ k m, k < n → m < cntK key s k →
        (k ≠ key i ∨ m ≠ cntK key done (key i)) →
        startB key s k + m ≠ getl freq (key i) := by
      intro k m hk hm hne
      rw [hp]
      rcases Nat.lt_trichotomy k (key i) with hlt | heq | hgt
      · have : startB key s k + m < startB key s (key i) := by
          calc startB key s k + m < startB key s k + cntK key s k := by omega
            _ = startB key s (k + 1) := (startB_succ key s k).symm
            _ ≤ startB key s (key i) := startB_mono key s hlt
        omega
      · subst heq
        rcases hne with hne | hne
        · exact absurd rfl hne
        · omega
      · have : startB key s (key i) + cntK key done (key i) < startB key s k := by
          calc startB key s (key i) + cntK key done (key i)
              < startB key s (key i) + cntK key s (key i) := by omega
            _ = startB key s (key i + 1) := (startB_succ key s (key i)).symm
            _ ≤ startB key s k := startB_mono key s hgt
        omega
    apply ih (done ++ [i])
    · rw [List.append_assoc]
      simpa using hsplit
    · rw [List.length_set, hflen]
    · intro k hk
      rw [cntK_append]
      by_cases hki : key i = k
      · subst hki
        have h1 : cntK key [i] (key i) = 1 := by simp [cntK]
        rw [h1, getl_set_self _ _ _ (by rw [hflen]; exact he), hp]
        omega
      · have h0 : cntK key [i] k = 0 := by simp [cntK, hki]
        rw [h0, getl_set_ne _ _ _ _ hki, hfreq k hk]
        omega
    · rw [List.length_set, hdlen]
    · intro k hk m hm
      rw [cntK_append] at hm
      by_cases hki : key i = k
      · subst hki
        have h1 : cntK key [i] (key i) = 1 := by simp [cntK]
        rw [h1] at hm
        rcases Nat.lt_or_ge m (cntK key done (key i)) with hmlt | hmge
        · rw [getl_set_ne _ _ _ _ (Ne.symm (hdisj _ _ hk (by omega) (Or.inr (by omega))))]
          exact hagree _ hk m hmlt
        · have hmeq : m = cntK key done (key i) := by omega
          subst hmeq
          rw [← hp, getl_set_self _ _ _ (by rw [hdlen]; exact hposlt)]
          have hfsplit : s.filter (fun x => decide (key x = key i))
              = done.filter (fun x => decide (key x = key i))
                ++ i :: todo'.filter (fun x => decide (key x = key i)) := by
            rw [← hsplit, List.filter_append]
            congr 1
            rw [List.filter_cons_of_pos (by simp)]
          rw [hfsplit]
          have hdl : (done.filter (fun x => decide (key x = key i))).length
              = cntK key done (key i) := rfl
          have hgar := getl_append_right (done.filter (fun x => decide (key x = key i)))
            (i :: todo'.filter (fun x => decide (key x = key i))) 0 (by simp)
          rw [hdl] at hgar
          simpa using hgar.symm
      · have h0 : cntK key [i] k = 0 := by simp [cntK, hki]
        rw [h0] at hm
        rw [getl_set_ne _ _ _ _
          (Ne.symm (hdisj _ _ hk (by have := hscnt k; omega) (Or.inl (fun h => hki h.symm))))]
        exact hagree _ hk m (by omega)

theorem place_spec (key : Nat → Nat) (s : List Nat) (n : Nat)
    (freq dest : List Nat)
    (hkeys : ∀ i ∈ s, key i < n)
    (hflen : freq.length = n)
    (hfreq : ∀ k, k < n → getl freq k = startB key s k)
    (hdlen : dest.length = s.length) :
    (place key s (freq, dest)).2 = bucketsUpTo key s n := by
  have hBn : startB key s n = s.length := startB_total key s n hkeys
  obtain ⟨hlen, hagree⟩ := place_go key s n hkeys hBn s [] freq dest rfl hflen
    (by intro k hk; rw [hfreq k hk]; rfl)
    hdlen
    (by intro k _ m hm; have h0 : cntK key [] k = 0 := rfl; omega)
  apply ext_getl
  · rw [hlen, length_bucketsUpTo, ← hBn]
    rfl
  · intro q hq
    rw [hlen, ← hBn] at hq
    obtain ⟨k, hk, m, hm, hqe⟩ := startB_cover key s n q hq
    subst hqe
    rw [hagree k hk m hm]
    exact (getl_bucketsUpTo key s n k m hk hm).symm

/-! ### Translation lemmas between index counts and value counts -/

theorem count_getl_range (l : List Nat) (j : Nat) :
    (List.range l.length).countP (fun i => decide (getl l i = j)) = l.count j := by
  induction l using List.reverseRecOn with
  | nil => simp
  | append_singleton xs x ih =>
    rw [List.length_append, List.length_singleton, List.range_succ, List.countP_append,
      List.count_append]
    have h1 : (List.range xs.length).countP (fun i => decide (getl (xs ++ [x]) i = j))
        = (List.range xs.length).countP (fun i => decide (getl xs i = j)) := by
      apply List.countP_congr
      intro i hi
      rw [getl_append_left _ _ _ (List.mem_range.1 hi)]
    rw [h1, ih]
    have h2 : getl (xs ++ [x]) xs.length = x := by
      have := getl_append_right xs [x] 0 (by simp)
      simpa using this
    have h3 : (List.countP (fun i => decide (getl (xs ++ [x]) i = j)) [xs.length])
        = if x = j then 1 else 0 := by
      simp [List.countP, List.countP.go, h2]
    rw [h3, List.count_singleton]
    by_cases hxj : x = j
    · rw [if_pos hxj, if_pos (by simpa using hxj)]
    · rw [if_neg hxj, if_neg (by simpa using hxj)]

theorem rotation_perm (n off : Nat) (hn : 1 ≤ n) :
    ((List.range n).map (fun i => (i + off) % n)).Perm (List.range n) := by
  have hnd : ((List.range n).map (fun i => (i + off) % n)).Nodup := by
    apply List.Nodup.map_on ?_ (List.nodup_range n)
    intro x hx y hy hxy
    have hx' : x < n := List.mem_range.1 hx
    have hy' : y < n := List.mem_range.1 hy
    have hmod : Nat.ModEq n (x + off) (y + off) := hxy
    have := Nat.ModEq.add_right_cancel' off hmod
    have hxx : x % n = x := Nat.mod_eq_of_lt hx'
    have hyy : y % n = y := Nat.mod_eq_of_lt hy'
    unfold Nat.ModEq at this
    omega
  have hsub : ((List.range n).map (fun i => (i + off) % n)) ⊆ List.range n := by
    intro x hx
    obtain ⟨i, _, hie⟩ := List.mem_map.1 hx
    rw [List.mem_range, ← hie]
    exact Nat.mod_lt _ (by omega)
  have hle : (List.range n).length ≤ ((List.range n).map (fun i => (i + off) % n)).length := by
    rw [List.length_map]
  exact (List.subperm_of_subset hnd hsub).perm_of_length_le hle

theorem mem_getl_of_lt (l : List Nat) (i : Nat) (h : i < l.length) :
    getl l i ∈ l := by
  rw [getl_eq_getElem _ _ h]
  exact List.getElem_mem h

theorem forall_mem_lt_of_getl (l : List Nat) (n : Nat) (hlen : l.length = n)
    (hval : ∀ i, i < n → getl l i < n) : ∀ v ∈ l, v < n := by
  intro v hv
  obtain ⟨i, hi, hie⟩ := List.mem_iff_getElem.1 hv
  rw [← getl_eq_getElem _ _ hi] at hie
  rw [← hie]
  exact hval i (by omega)

theorem cntK_key1_eq_count (lastRow : List Nat) (n off j : Nat)
    (hlr : lastRow.length = n) (hn : 1 ≤ n) :
    cntK (fun i => getl lastRow ((i + off) % n)) (List.range n) j = lastRow.count j := by
  unfold cntK
  rw [← List.countP_eq_length_filter]
  have h1 : (List.range n).countP (fun i => decide (getl lastRow ((i + off) % n) = j))
      = ((List.range n).map (fun i => (i + off) % n)).countP
          (fun x => decide (getl lastRow x = j)) := by
    rw [List.countP_map]
    rfl
  rw [h1, (rotation_perm n off hn).countP_eq, ← hlr, count_getl_range]

theorem cntK_key2_eq_count (lastRow : List Nat) (n j : Nat) (src : List Nat)
    (hlr : lastRow.length = n) (hperm : src.Perm (List.range n)) :
    cntK (fun i => getl lastRow i) src j = lastRow.count j := by
  unfold cntK
  rw [← List.countP_eq_length_filter, hperm.countP_eq, ← hlr, count_getl_range]

theorem starts_spec (lastRow : List Nat) (n : Nat) (_hlr : lastRow.length = n)
    (hvv : ∀ v ∈ lastRow, v < n) :
    ∀ k, k < n → getl (prefixExcl 0 (countFreq lastRow (List.replicate n 0))) k
      = sumBelow (fun j => lastRow.count j) k := by
  intro k hk
  have hflen : (countFreq lastRow (List.replicate n 0)).length = n := by
    rw [length_countFreq, List.length_replicate]
  rw [getl_prefixExcl _ 0 k (by rw [hflen]; exact hk)]
  have hpt : ∀ j, j < k → getl (countFreq lastRow (List.replicate n 0)) j
      = lastRow.count j := by
    intro j _
    rw [getl_countFreq _ _ _ (by intro v hv; rw [List.length_replicate]; exact hvv v hv),
      getl_replicate]
    omega
  rw [sumBelow_congr hpt]
  omega

theorem length_starts (lastRow : List Nat) (n : Nat) :
    (prefixExcl 0 (countFreq lastRow (List.replicate n 0))).length = n := by
  rw [length_prefixExcl, length_countFreq, List.length_replicate]

theorem dbfStep_spec (n off : Nat) (lastRow order : List Nat)
    (hn : 1 ≤ n) (hlr : lastRow.length = n)
    (hval : ∀ i, i < n → getl lastRow i < n)
    (hord : order.length = n) :
    (dbfStep n off lastRow order).1.length = n ∧
    (dbfStep n off lastRow order).2.length = n ∧
    (dbfStep n off lastRow order).2.Perm (List.range n) ∧
    (∀ p, p < n → getl (dbfStep n off lastRow order).1 p < n) ∧
    (∀ p, p < n → ∀ q, q < n →
      cmpOf (getl (dbfStep n off lastRow order).1 p) (getl (dbfStep n off lastRow order).1 q)
        = pairCmpN (pairKey lastRow n off p) (pairKey lastRow n off q)) ∧
    (∀ q, q < n → ∀ v, v ≤ getl (dbfStep n off lastRow order).1 q →
      ∃ p, p < n ∧ getl (dbfStep n off lastRow order).1 p = v) := by
  have hvv : ∀ v ∈ lastRow, v < n := forall_mem_lt_of_getl lastRow n hlr hval
  set key1 : Nat → Nat := fun i => getl lastRow ((i + off) % n) with hk1
  set key2 : Nat → Nat := fun i => getl lastRow i with hk2
  set starts1 : List Nat := prefixExcl 0 (countFreq lastRow (List.replicate n 0)) with hs1
  set row1 : List Nat := (place key1 (List.range n) (starts1, lastRow)).2 with hr1
  set order1 : List Nat := (place key2 row1 (starts1, order)).2 with ho1
  have hstep1 : (dbfStep n off lastRow order).1
      = rankAssign (pairKey lastRow n off) order1 row1 := rfl
  have hstep2 : (dbfStep n off lastRow order).2 = order1 := rfl
  have hstarts : ∀ k, k < n → getl starts1 k = sumBelow (fun j => lastRow.count j) k :=
    starts_spec lastRow n hlr hvv
  have hslen : starts1.length = n := length_starts lastRow n
  -- pass 1
  have hkeys1 : ∀ i ∈ List.range n, key1 i < n := by
    intro i _
    exact hval _ (Nat.mod_lt _ (by omega))
  have hstarts1 : ∀ k, k < n → getl starts1 k = startB key1 (List.range n) k := by
    intro k hk
    rw [hstarts k hk]
    unfold startB
    exact sumBelow_congr (fun j _ => (cntK_key1_eq_count lastRow n off j hlr hn).symm)
  have hrow1 : row1 = bucketsUpTo key1 (List.range n) n := by
    rw [hr1]
    exact place_spec key1 (List.range n) n starts1 lastRow hkeys1 hslen hstarts1
      (by rw [hlr, List.length_range])
  have hrow1perm : row1.Perm (List.range n) := by
    rw [hrow1]
    exact perm_bucketsUpTo key1 (List.range n) n hkeys1
  have hrow1len : row1.length = n := by
    rw [hrow1perm.length_eq, List.length_range]
  have hrow1mem : ∀ i ∈ row1, i < n := by
    intro i hi
    exact List.mem_range.1 (hrow1perm.mem_iff.1 hi)
  have hrow1sorted : row1.Pairwise (fun a b => key1 a ≤ key1 b) := by
    rw [hrow1]
    apply pairwise_bucketsUpTo
    · intro j
      apply pairwiseOfMem
      intro x hx y hy
      have hxj : key1 x = j := by simpa using (List.mem_filter.1 hx).2
      have hyj : key1 y = j := by simpa using (List.mem_filter.1 hy).2
      rw [hxj, hyj]
    · intro x y h
      exact le_of_lt h
  -- pass 2
  have hkeys2 : ∀ i ∈ row1, key2 i < n := by
    intro i hi
    exact hval i (hrow1mem i hi)
  have hstarts2 : ∀ k, k < n → getl starts1 k = startB key2 row1 k := by
    intro k hk
    rw [hstarts k hk]
    unfold startB
    exact sumBelow_congr (fun j _ => (cntK_key2_eq_count lastRow n j row1 hlr hrow1perm).symm)
  have horder1 : order1 = bucketsUpTo key2 row1 n := by
    rw [ho1]
    exact place_spec key2 row1 n starts1 order hkeys2 hslen hstarts2
      (by rw [hord, hrow1len])
  have horder1perm : order1.Perm (List.range n) := by
    rw [horder1]
    exact (perm_bucketsUpTo key2 row1 n hkeys2).trans hrow1perm
  have horder1len : order1.length = n := by
    rw [horder1perm.length_eq, List.length_range]
  have horder1mem : ∀ i ∈ order1, i < n := by
    intro i hi
    exact List.mem_range.1 (horder1perm.mem_iff.1 hi)
  have hmemorder1 : ∀ i, i < n → i ∈ order1 := by
    intro i hi
    exact horder1perm.mem_iff.2 (List.mem_range.2 hi)
  have horder1nodup : order1.Nodup :=
    (List.nodup_range n).perm horder1perm.symm
  have hpkeq : ∀ a, pairKey lastRow n off a = (key2 a, key1 a) := fun a => rfl
  have horder1pw : order1.Pairwise
      (fun a b => pairCmpN (pairKey lastRow n off a) (pairKey lastRow n off b) ≠ .gt) := by
    rw [horder1]
    apply pairwise_bucketsUpTo
    · intro j
      have hsorted' : (row1.filter (fun i => decide (key2 i = j))).Pairwise
          (fun a b => key1 a ≤ key1 b) :=
        List.Pairwise.sublist (List.filter_sublist row1) hrow1sorted
      apply hsorted'.imp_of_mem
      intro a b ha hb hle
      have haj : key2 a = j := by simpa using (List.mem_filter.1 ha).2
      have hbj : key2 b = j := by simpa using (List.mem_filter.1 hb).2
      rw [hpkeq a, hpkeq b]
      unfold pairCmpN
      simp only [haj, hbj, cmpOf_self]
      rw [cmpOf_ne_gt_iff]
      exact hle
    · intro x y hxy
      rw [hpkeq x, hpkeq y]
      unfold pairCmpN
      simp only [(cmpOf_lt_iff (key2 x) (key2 y)).2 hxy]
      simp
  -- dense ranking
  rcases horder1case : order1 with _ | ⟨o0, rest⟩
  · rw [horder1case] at horder1len
    simp at horder1len
    omega
  · rw [horder1case] at horder1nodup horder1pw horder1len horder1mem hmemorder1
    have hbounds : ∀ i ∈ o0 :: rest, i < row1.length := by
      intro i hi
      rw [hrow1len]
      exact horder1mem i hi
    obtain ⟨ralen, raut, rabound, raiso, radens⟩ :=
      rankAssign_spec (pairKey lastRow n off) pairCmpN pairCmpN_eq_iff pairCmpN_swap
        o0 rest row1 horder1nodup hbounds horder1pw
    rw [hstep1, hstep2, horder1case]
    refine ⟨by rw [ralen, hrow1len], by exact horder1len, by rw [← horder1case]; exact horder1perm, ?_, ?_, ?_⟩
    · intro p hp
      have := rabound p (hmemorder1 p hp)
      rw [horder1len] at this
      exact this
    · intro p hp q hq
      exact raiso p (hmemorder1 p hp) q (hmemorder1 q hq)
    · intro q hq v hv
      obtain ⟨p, hpmem, hpv⟩ := radens q (hmemorder1 q hq) v hv
      exact ⟨p, horder1mem p hpmem, hpv⟩

/-! ### The doubling invariant -/

theorem lexCmp_singleton {α : Type} [LinearOrder α] (a b : α) :
    lexCmp [a] [b] = cmpOf a b := by
  rcases h : cmpOf a b with _ | _ | _ <;> simp [lexCmp, h]

theorem cyc_one {α : Type} [Inhabited α] (arr : List α) (p : Nat)
    (hp : p < arr.length) : cyc arr p 1 = [arr.getD p default] := by
  unfold cyc
  have hr1 : List.range 1 = [0] := rfl
  rw [hr1]
  simp [Nat.mod_eq_of_lt hp]

theorem pairKey_lex {α : Type} [Inhabited α] [LinearOrder α]
    (arr : List α) (off : Nat) (lastRow : List Nat)
    (hn : 1 ≤ arr.length) (hiso : rowIso arr off lastRow) :
    ∀ p, p < arr.length → ∀ q, q < arr.length →
      pairCmpN (pairKey lastRow arr.length off p) (pairKey lastRow arr.length off q)
        = lexCmp (cyc arr p (off + off)) (cyc arr q (off + off)) := by
  intro p hp q hq
  have hpm : (p + off) % arr.length < arr.length := Nat.mod_lt _ (by omega)
  have hqm : (q + off) % arr.length < arr.length := Nat.mod_lt _ (by omega)
  have hsplit1 : cyc arr p (off + off)
      = cyc arr p off ++ cyc arr ((p + off) % arr.length) off := cyc_split arr p off off
  have hsplit2 : cyc arr q (off + off)
      = cyc arr q off ++ cyc arr ((q + off) % arr.length) off := cyc_split arr q off off
  rw [hsplit1, hsplit2, lexCmp_append _ _ _ _ (by rw [length_cyc, length_cyc])]
  unfold pairCmpN pairKey
  simp only
  rw [hiso p hp q hq, hiso _ hpm _ hqm]

theorem dbfStep_rowOK {α : Type} [Inhabited α] [LinearOrder α]
    (arr : List α) (off : Nat) (lastRow order : List Nat)
    (hn : 1 ≤ arr.length)
    (hOK : rowOK arr off lastRow)
    (hord : order.length = arr.length) :
    rowOK arr (off + off) (dbfStep arr.length off lastRow order).1 ∧
    (dbfStep arr.length off lastRow order).2.length = arr.length := by
  obtain ⟨hlen, hbound, hiso, hdens⟩ := hOK
  obtain ⟨slen, s2len, _, sbound, siso, sdens⟩ :=
    dbfStep_spec arr.length off lastRow order hn hlen hbound hord
  refine ⟨⟨slen, sbound, ?_, ?_⟩, s2len⟩
  · intro p hp q hq
    rw [siso p hp q hq]
    exact pairKey_lex arr off lastRow hn hiso p hp q hq
  · intro q hq v hv
    exact sdens q hq v hv

theorem dbfLoop_spec {α : Type} [Inhabited α] [LinearOrder α] (arr : List α)
    (hn : 1 ≤ arr.length) :
    ∀ (fuel h : Nat) (lastRow order : List Nat),
    1 ≤ fuel →
    arr.length ≤ 2 ^ (h + fuel) →
    rowOK arr (2 ^ h) lastRow →
    order.length = arr.length →
    (∀ t, t < (dbfLoop arr.length fuel h lastRow order).length →
      rowOK arr (2 ^ (h + 1 + t)) ((dbfLoop arr.length fuel h lastRow order).getD t [])) ∧
    1 ≤ (dbfLoop arr.length fuel h lastRow order).length ∧
    arr.length ≤ 2 ^ (h + (dbfLoop arr.length fuel h lastRow order).length) ∧
    (∀ t, t + 1 < (dbfLoop arr.length fuel h lastRow order).length →
      2 ^ (h + 1 + t) < arr.length) := by
  intro fuel
  induction fuel with
  | zero => intro h lastRow order hf; omega
  | succ f ih =>
    intro h lastRow order _ hfuel hOK hord
    have hstep := dbfStep_rowOK arr (2 ^ h) lastRow order hn hOK hord
    have hpow : 2 ^ h + 2 ^ h = 2 ^ (h + 1) := by
      rw [Nat.pow_succ]
      omega
    have hnewOK : rowOK arr (2 ^ (h + 1))
        (dbfStep arr.length (2 ^ h) lastRow order).1 := by
      rw [← hpow]
      exact hstep.1
    by_cases hcond : 2 ^ (h + 1) < arr.length
    · have hf1 : 1 ≤ f := by
        by_contra hf0
        have hfz : f = 0 := by omega
        subst hfz
        have hfe : h + (0 + 1) = h + 1 := by omega
        rw [hfe] at hfuel
        omega
      obtain ⟨ih1, ih2, ih3, ih4⟩ := ih (h + 1) (dbfStep arr.length (2 ^ h) lastRow order).1
        (dbfStep arr.length (2 ^ h) lastRow order).2 hf1
        (by have e : h + 1 + f = h + (f + 1) := by omega
            rw [e]
            exact hfuel)
        hnewOK hstep.2
      have hunfold : dbfLoop arr.length (f + 1) h lastRow order
          = (dbfStep arr.length (2 ^ h) lastRow order).1 ::
            dbfLoop arr.length f (h + 1) (dbfStep arr.length (2 ^ h) lastRow order).1
              (dbfStep arr.length (2 ^ h) lastRow order).2 := by
        simp only [dbfLoop, if_pos hcond]
      rw [hunfold]
      refine ⟨?_, by simp, ?_, ?_⟩
      · intro t ht
        cases t with
        | zero => simpa using hnewOK
        | succ t' =>
          have ht' : t' < (dbfLoop arr.length f (h + 1)
              (dbfStep arr.length (2 ^ h) lastRow order).1
              (dbfStep arr.length (2 ^ h) lastRow order).2).length := by
            simpa using ht
          have := ih1 t' ht'
          have harith : h + 1 + 1 + t' = h + 1 + (t' + 1) := by omega
          rw [harith] at this
          simpa using this
      · simp only [List.length_cons]
        have harith : h + 1 + (dbfLoop arr.length f (h + 1)
            (dbfStep arr.length (2 ^ h) lastRow order).1
            (dbfStep arr.length (2 ^ h) lastRow order).2).length
            = h + ((dbfLoop arr.length f (h + 1)
            (dbfStep arr.length (2 ^ h) lastRow order).1
            (dbfStep arr.length (2 ^ h) lastRow order).2).length + 1) := by omega
        rw [← harith]
        exact ih3
      · intro t ht
        cases t with
        | zero => simpa using hcond
        | succ t' =>
          have ht' : t' + 1 < (dbfLoop arr.length f (h + 1)
              (dbfStep arr.length (2 ^ h) lastRow order).1
              (dbfStep arr.length (2 ^ h) lastRow order).2).length := by
            simpa using ht
          have := ih4 t' ht'
          have harith : h + 1 + 1 + t' = h + 1 + (t' + 1) := by omega
          rw [harith] at this
          exact this
    · have hunfold : dbfLoop arr.length (f + 1) h lastRow order
          = [(dbfStep arr.length (2 ^ h) lastRow order).1] := by
        simp only [dbfLoop, if_neg hcond]
      rw [hunfold]
      refine ⟨?_, by simp, by simpa using Nat.le_of_not_lt hcond, ?_⟩
      · intro t ht
        have : t = 0 := by simpa using ht
        subst this
        simpa using hnewOK
      · intro t ht
        simp at ht

theorem build_spec {α : Type} [Inhabited α] [LinearOrder α] (arr : List α)
    (hne : 1 ≤ arr.length) :
    ∃ d, DBF.build arr = Option.some d ∧ d.n = arr.length ∧
      2 ≤ d.dbf.length ∧
      (∀ t, t < d.dbf.length → rowOK arr (2 ^ t) (d.dbf.getD t [])) ∧
      arr.length ≤ 2 ^ (d.dbf.length - 1) ∧
      (∀ t, 1 ≤ t → t + 1 < d.dbf.length → 2 ^ t < arr.length) := by
  have hperm0 : (insSort (fun i j => decide (arr.getD i default ≤ arr.getD j default))
      (List.range arr.length)).Perm (List.range arr.length) :=
    insSort_perm _ _
  rcases horder : insSort (fun i j => decide (arr.getD i default ≤ arr.getD j default))
      (List.range arr.length) with _ | ⟨o0, rest⟩
  · exfalso
    rw [horder] at hperm0
    have := hperm0.length_eq
    rw [List.length_range] at this
    simp at this
    omega
  · rw [horder] at hperm0
    have hlen : (o0 :: rest).length = arr.length := by
      rw [hperm0.length_eq, List.length_range]
    have hnodup : (o0 :: rest).Nodup := (List.nodup_range arr.length).perm hperm0.symm
    have hmemlt : ∀ i ∈ o0 :: rest, i < arr.length := by
      intro i hi
      exact List.mem_range.1 (hperm0.mem_iff.1 hi)
    have hltmem : ∀ i, i < arr.length → i ∈ o0 :: rest := by
      intro i hi
      exact hperm0.mem_iff.2 (List.mem_range.2 hi)
    have htot : ∀ a b : Nat,
        (fun i j => decide (arr.getD i default ≤ arr.getD j default)) a b = true ∨
        (fun i j => decide (arr.getD i default ≤ arr.getD j default)) b a = true := by
      intro a b
      rcases le_total (arr.getD a default) (arr.getD b default) with h | h
      · exact Or.inl (by simpa using h)
      · exact Or.inr (by simpa using h)
    have htrans : ∀ a b c : Nat,
        (fun i j => decide (arr.getD i default ≤ arr.getD j default)) a b = true →
        (fun i j => decide (arr.getD i default ≤ arr.getD j default)) b c = true →
        (fun i j => decide (arr.getD i default ≤ arr.getD j default)) a c = true := by
      intro a b c hab hbc
      simp only [decide_eq_true_eq] at hab hbc ⊢
      exact le_trans hab hbc
    have hsorted : (o0 :: rest).Pairwise
        (fun a b => (fun i j => decide (arr.getD i default ≤ arr.getD j default)) a b = true) := by
      rw [← horder]
      exact insSort_pairwise _ htot htrans _
    have hsorted' : (o0 :: rest).Pairwise
        (fun a b => cmpOf (arr.getD a default) (arr.getD b default) ≠ .gt) := by
      apply hsorted.imp
      intro a b hab
      rw [cmpOf_ne_gt_iff]
      simpa using hab
    have hbounds : ∀ i ∈ o0 :: rest, i < (List.replicate arr.length 0).length := by
      intro i hi
      rw [List.length_replicate]
      exact hmemlt i hi
    obtain ⟨ralen, raut, rabound, raiso, radens⟩ :=
      rankAssign_spec (fun i => arr.getD i default) cmpOf cmpOf_eq_iff cmpOf_swap
        o0 rest (List.replicate arr.length 0) hnodup hbounds hsorted'
    have hrow0OK : rowOK arr 1
        (rankAssign (fun i => arr.getD i default) (o0 :: rest)
          (List.replicate arr.length 0)) := by
      refine ⟨by rw [ralen, List.length_replicate], ?_, ?_, ?_⟩
      · intro p hp
        have := rabound p (hltmem p hp)
        rw [hlen] at this
        exact this
      · intro p hp q hq
        rw [raiso p (hltmem p hp) q (hltmem q hq), ← lexCmp_singleton,
          ← cyc_one arr p hp, ← cyc_one arr q hq]
      · intro q hq v hv
        obtain ⟨p, hpmem, hpv⟩ := radens q (hltmem q hq) v hv
        exact ⟨p, hmemlt p hpmem, hpv⟩
    have hbuild0 : DBF.build arr
        = (match insSort (fun i j => decide (arr.getD i default ≤ arr.getD j default))
            (List.range arr.length) with
          | [] => Option.none
          | o0 :: rest => Option.some ⟨arr.length,
              rankAssign (fun i => arr.getD i default) (o0 :: rest)
                (List.replicate arr.length 0)
                :: dbfLoop arr.length arr.length 0
                  (rankAssign (fun i => arr.getD i default) (o0 :: rest)
                    (List.replicate arr.length 0))
                  (o0 :: rest)⟩) := rfl
    rw [horder] at hbuild0
    have hbuild : DBF.build arr = Option.some ⟨arr.length,
        rankAssign (fun i => arr.getD i default) (o0 :: rest) (List.replicate arr.length 0)
          :: dbfLoop arr.length arr.length 0
            (rankAssign (fun i => arr.getD i default) (o0 :: rest)
              (List.replicate arr.length 0))
            (o0 :: rest)⟩ := hbuild0.trans rfl
    obtain ⟨lp1, lp2, lp3, lp4⟩ := dbfLoop_spec arr hne arr.length 0
      (rankAssign (fun i => arr.getD i default) (o0 :: rest) (List.replicate arr.length 0))
      (o0 :: rest) hne
      (by simpa using le_of_lt (Nat.lt_two_pow arr.length))
      (by rw [Nat.pow_zero]; exact hrow0OK)
      hlen
    refine ⟨_, hbuild, rfl, ?_, ?_, ?_, ?_⟩
    · simp only [List.length_cons]
      omega
    · intro t ht
      cases t with
      | zero =>
        rw [Nat.pow_zero]
        exact hrow0OK
      | succ t' =>
        simp only [List.length_cons] at ht
        have := lp1 t' (by omega)
        have harith : 0 + 1 + t' = t' + 1 := by omega
        rw [harith] at this
        exact this
    · simp only [List.length_cons, Nat.add_sub_cancel]
      have := lp3
      rw [Nat.zero_add] at this
      exact this
    · intro t h1t ht1
      simp only [List.length_cons] at ht1
      rcases Nat.exists_eq_add_of_le h1t with ⟨t', rfl⟩
      have := lp4 t' (by omega)
      have harith : 0 + 1 + t' = 1 + t' := by omega
      rw [harith] at this
      exact this

/-! ### Consequences of the build characterization -/

theorem build_nil_eq_none {α : Type} [Inhabited α] [LinearOrder α] :
    DBF.build ([] : List α) = Option.none := rfl

theorem build_some_spec {α : Type} [Inhabited α] [LinearOrder α] (arr : List α) (d : DBF)
    (hb : DBF.build arr = Option.some d) :
    1 ≤ arr.length ∧ d.n = arr.length ∧ 2 ≤ d.dbf.length ∧
    (∀ t, t < d.dbf.length → rowOK arr (2 ^ t) (d.dbf.getD t [])) ∧
    arr.length ≤ 2 ^ (d.dbf.length - 1) ∧
    (∀ t, 1 ≤ t → t + 1 < d.dbf.length → 2 ^ t < arr.length) := by
  have hne : 1 ≤ arr.length := by
    by_contra h
    have harr : arr = [] := List.length_eq_zero.1 (by omega)
    rw [harr, build_nil_eq_none] at hb
    cases hb
  obtain ⟨d', hb', hn', hlen', hok', hup', hint'⟩ := build_spec arr hne
  have hdd : d' = d := Option.some.inj (hb'.symm.trans hb)
  subst hdd
  exact ⟨hne, hn', hlen', hok', hup', hint'⟩

theorem rowIso_eq_iff {α : Type} [Inhabited α] [LinearOrder α]
    (arr : List α) (m : Nat) (row : List Nat) (hiso : rowIso arr m row)
    (p q : Nat) (hp : p < arr.length) (hq : q < arr.length) :
    getl row p = getl row q ↔ cyc arr p m = cyc arr q m := by
  rw [← cmpOf_eq_iff, hiso p hp q hq, lexCmp_eq_iff]

theorem dbf_length_eq {α : Type} [Inhabited α] [LinearOrder α] (arr : List α) (d : DBF)
    (hb : DBF.build arr = Option.some d) :
    d.dbf.length = max 1 (Nat.clog 2 arr.length) + 1 := by
  obtain ⟨hne, _, hlen2, _, hup, hint⟩ := build_some_spec arr d hb
  rcases Nat.lt_or_ge arr.length 3 with hsmall | hbig
  · -- n ≤ 2 : exactly two levels
    have hclog : Nat.clog 2 arr.length ≤ 1 :=
      (Nat.le_pow_iff_clog_le (by omega)).1 (by omega)
    have hL : d.dbf.length = 2 := by
      by_contra hL3
      have h3 : 3 ≤ d.dbf.length := by omega
      have := hint 1 le_rfl (by omega)
      omega
    rw [hL]
    omega
  · -- n ≥ 3 : clog 2 n ≥ 2 and the length is clog 2 n + 1
    have hclog2 : 2 ≤ Nat.clog 2 arr.length := by
      have := (Nat.pow_lt_iff_lt_clog (by omega)).1 (show 2 ^ 1 < arr.length by omega)
      omega
    have hup' : Nat.clog 2 arr.length ≤ d.dbf.length - 1 :=
      (Nat.le_pow_iff_clog_le (by omega)).1 hup
    have hL3 : 3 ≤ d.dbf.length := by
      by_contra h
      have hL2 : d.dbf.length = 2 := by omega
      rw [hL2] at hup'
      omega
    have hlow := hint (d.dbf.length - 2) (by omega) (by omega)
    have hlow' : d.dbf.length - 2 < Nat.clog 2 arr.length :=
      (Nat.pow_lt_iff_lt_clog (by omega)).1 hlow
    omega

theorem flog2_lt_dbf_length {α : Type} [Inhabited α] [LinearOrder α]
    (arr : List α) (d : DBF) (hb : DBF.build arr = Option.some d)
    (len : Nat) (h1 : 1 ≤ len) (h2 : len ≤ arr.length) :
    flog2 len < d.dbf.length := by
  obtain ⟨hne, _, hlen2, _, hup, _⟩ := build_some_spec arr d hb
  have hf := flog2_spec len h1
  have hpow : 2 ^ flog2 len ≤ 2 ^ (d.dbf.length - 1) := by omega
  have := (Nat.pow_le_pow_iff_right (by omega : 1 < 2)).1 hpow
  omega

theorem row_length_eq {α : Type} [Inhabited α] [LinearOrder α]
    (arr : List α) (d : DBF) (hb : DBF.build arr = Option.some d)
    (t : Nat) (ht : t < d.dbf.length) :
    (d.dbf.getD t []).length = arr.length :=
  ((build_some_spec arr d hb).2.2.2.1 t ht).1

/-- `get_repr` on a valid range `[l, l+len)`, written without the modulo
(the second block start `l + len - 2^h` is already below `n`). -/
theorem get_repr_eq {α : Type} [Inhabited α] [LinearOrder α]
    (arr : List α) (d : DBF) (hb : DBF.build arr = Option.some d)
    (l len : Nat) (h1 : 1 ≤ len) (h2 : l + len ≤ arr.length) :
    d.get_repr l (l + len)
      = (getl (d.dbf.getD (flog2 len) []) l,
         getl (d.dbf.getD (flog2 len) []) (l + len - 2 ^ flog2 len)) := by
  obtain ⟨hne, hdn, _, _, _, _⟩ := build_some_spec arr d hb
  have hf := flog2_spec len h1
  have hrepr : d.get_repr l (l + len)
      = (getl (d.dbf.getD (flog2 (l + len - l)) []) l,
         getl (d.dbf.getD (flog2 (l + len - l)) [])
           ((l + len - 2 ^ flog2 (l + len - l)) % d.n)) := rfl
  have hc : l + len - l = len := by omega
  rw [hc] at hrepr
  have hmod : (l + len - 2 ^ flog2 len) % d.n = l + len - 2 ^ flog2 len := by
    apply Nat.mod_eq_of_lt
    rw [hdn]
    omega
  rw [hrepr, hmod]

/-- Covering: a substring of length `len` with `2^h ≤ len ≤ 2^(h+1)` is
determined by its two (possibly overlapping) blocks of length `2^h`. -/
theorem slice_cover_iff {α : Type} (arr : List α) (l1 l2 len ph : Nat)
    (_hp1 : 1 ≤ ph) (hple : ph ≤ len) (hlep : len ≤ ph + ph)
    (_hA : l1 + len ≤ arr.length) (_hB : l2 + len ≤ arr.length) :
    (sliceL arr l1 (l1 + ph) = sliceL arr l2 (l2 + ph) ∧
     sliceL arr (l1 + len - ph) (l1 + len) = sliceL arr (l2 + len - ph) (l2 + len))
    ↔ sliceL arr l1 (l1 + len) = sliceL arr l2 (l2 + len) := by
  constructor
  · rintro ⟨hAeq, hBeq⟩
    have hs1 : sliceL arr l1 (l1 + len)
        = sliceL arr l1 (l1 + ph) ++ sliceL arr (l1 + ph) (l1 + len) :=
      (sliceL_append arr l1 (l1 + ph) (l1 + len) (by omega) (by omega)).symm
    have hs2 : sliceL arr l2 (l2 + len)
        = sliceL arr l2 (l2 + ph) ++ sliceL arr (l2 + ph) (l2 + len) :=
      (sliceL_append arr l2 (l2 + ph) (l2 + len) (by omega) (by omega)).symm
    have hr1 : sliceL arr (l1 + ph) (l1 + len)
        = (sliceL arr (l1 + len - ph) (l1 + len)).drop (ph + ph - len) := by
      rw [drop_sliceL]
      congr 1
      omega
    have hr2 : sliceL arr (l2 + ph) (l2 + len)
        = (sliceL arr (l2 + len - ph) (l2 + len)).drop (ph + ph - len) := by
      rw [drop_sliceL]
      congr 1
      omega
    rw [hs1, hs2, hr1, hr2, hAeq, hBeq]
  · intro hS
    constructor
    · have h1 : sliceL arr l1 (l1 + ph) = (sliceL arr l1 (l1 + len)).take ph := by
        rw [take_sliceL arr l1 (l1 + len) ph (by omega)]
      have h2 : sliceL arr l2 (l2 + ph) = (sliceL arr l2 (l2 + len)).take ph := by
        rw [take_sliceL arr l2 (l2 + len) ph (by omega)]
      rw [h1, h2, hS]
    · have h1 : sliceL arr (l1 + len - ph) (l1 + len)
          = (sliceL arr l1 (l1 + len)).drop (len - ph) := by
        rw [drop_sliceL]
        congr 1
        omega
      have h2 : sliceL arr (l2 + len - ph) (l2 + len)
          = (sliceL arr l2 (l2 + len)).drop (len - ph) := by
        rw [drop_sliceL]
        congr 1
        omega
      rw [h1, h2, hS]

theorem get_repr_eq_iff_slice {α : Type} [Inhabited α] [LinearOrder α]
    (arr : List α) (d : DBF) (hb : DBF.build arr = Option.some d)
    (len l1 l2 : Nat) (h1 : 1 ≤ len)
    (hA : l1 + len ≤ arr.length) (hB : l2 + len ≤ arr.length) :
    d.get_repr l1 (l1 + len) = d.get_repr l2 (l2 + len)
      ↔ sliceL arr l1 (l1 + len) = sliceL arr l2 (l2 + len) := by
  have hf := flog2_spec len h1
  have hh : flog2 len < d.dbf.length :=
    flog2_lt_dbf_length arr d hb len h1 (by omega)
  obtain ⟨hrl, _, hiso, _⟩ := (build_some_spec arr d hb).2.2.2.1 (flog2 len) hh
  have hph1 : 1 ≤ 2 ^ flog2 len := Nat.one_le_two_pow
  rw [get_repr_eq arr d hb l1 len h1 hA, get_repr_eq arr d hb l2 len h1 hB,
    Prod.mk.injEq]
  have ha : getl (d.dbf.getD (flog2 len) []) l1 = getl (d.dbf.getD (flog2 len) []) l2
      ↔ cyc arr l1 (2 ^ flog2 len) = cyc arr l2 (2 ^ flog2 len) :=
    rowIso_eq_iff arr _ _ hiso l1 l2 (by omega) (by omega)
  have hbq : getl (d.dbf.getD (flog2 len) []) (l1 + len - 2 ^ flog2 len)
        = getl (d.dbf.getD (flog2 len) []) (l2 + len - 2 ^ flog2 len)
      ↔ cyc arr (l1 + len - 2 ^ flog2 len) (2 ^ flog2 len)
        = cyc arr (l2 + len - 2 ^ flog2 len) (2 ^ flog2 len) :=
    rowIso_eq_iff arr _ _ hiso _ _ (by omega) (by omega)
  rw [ha, hbq]
  rw [cyc_eq_sliceL arr l1 _ (by omega), cyc_eq_sliceL arr l2 _ (by omega),
    cyc_eq_sliceL arr _ _ (by omega : l1 + len - 2 ^ flog2 len + 2 ^ flog2 len ≤ arr.length),
    cyc_eq_sliceL arr _ _ (by omega : l2 + len - 2 ^ flog2 len + 2 ^ flog2 len ≤ arr.length)]
  have he1 : l1 + len - 2 ^ flog2 len + 2 ^ flog2 len = l1 + len := by omega
  have he2 : l2 + len - 2 ^ flog2 len + 2 ^ flog2 len = l2 + len := by omega
  rw [he1, he2]
  exact slice_cover_iff arr l1 l2 len (2 ^ flog2 len) hph1 (by omega) (by omega) hA hB

theorem get_repr_cmp {α : Type} [Inhabited α] [LinearOrder α]
    (arr : List α) (d : DBF) (hb : DBF.build arr = Option.some d)
    (len l1 l2 : Nat) (h1 : 1 ≤ len)
    (hA : l1 + len ≤ arr.length) (hB : l2 + len ≤ arr.length) :
    pairCmpN (d.get_repr l1 (l1 + len)) (d.get_repr l2 (l2 + len))
      = lexCmp (sliceL arr l1 (l1 + len)) (sliceL arr l2 (l2 + len)) := by
  have hf := flog2_spec len h1
  have hh : flog2 len < d.dbf.length :=
    flog2_lt_dbf_length arr d hb len h1 (by omega)
  obtain ⟨hrl, _, hiso, _⟩ := (build_some_spec arr d hb).2.2.2.1 (flog2 len) hh
  have hph1 : 1 ≤ 2 ^ flog2 len := Nat.one_le_two_pow
  set ph : Nat := 2 ^ flog2 len with hph
  rw [get_repr_eq arr d hb l1 len h1 hA, get_repr_eq arr d hb l2 len h1 hB]
  have hx : cmpOf (getl (d.dbf.getD (flog2 len) []) l1)
        (getl (d.dbf.getD (flog2 len) []) l2)
      = lexCmp (sliceL arr l1 (l1 + ph)) (sliceL arr l2 (l2 + ph)) := by
    rw [hiso l1 (by omega) l2 (by omega),
      cyc_eq_sliceL arr l1 _ (by omega), cyc_eq_sliceL arr l2 _ (by omega)]
  have hy : cmpOf (getl (d.dbf.getD (flog2 len) []) (l1 + len - ph))
        (getl (d.dbf.getD (flog2 len) []) (l2 + len - ph))
      = lexCmp (sliceL arr (l1 + len - ph) (l1 + len))
          (sliceL arr (l2 + len - ph) (l2 + len)) := by
    rw [hiso _ (by omega) _ (by omega),
      cyc_eq_sliceL arr _ _ (by omega : l1 + len - ph + ph ≤ arr.length),
      cyc_eq_sliceL arr _ _ (by omega : l2 + len - ph + ph ≤ arr.length)]
    have he1 : l1 + len - ph + ph = l1 + len := by omega
    have he2 : l2 + len - ph + ph = l2 + len := by omega
    rw [he1, he2]
  have hS1 : sliceL arr l1 (l1 + len)
      = sliceL arr l1 (l1 + ph) ++ sliceL arr (l1 + ph) (l1 + len) :=
    (sliceL_append arr l1 (l1 + ph) (l1 + len) (by omega) (by omega)).symm
  have hS2 : sliceL arr l2 (l2 + len)
      = sliceL arr l2 (l2 + ph) ++ sliceL arr (l2 + ph) (l2 + len) :=
    (sliceL_append arr l2 (l2 + ph) (l2 + len) (by omega) (by omega)).symm
  have hlA : (sliceL arr l1 (l1 + ph)).length = (sliceL arr l2 (l2 + ph)).length := by
    rw [length_sliceL arr _ _ (by omega), length_sliceL arr _ _ (by omega)]
    omega
  have happ : lexCmp (sliceL arr l1 (l1 + len)) (sliceL arr l2 (l2 + len))
      = match lexCmp (sliceL arr l1 (l1 + ph)) (sliceL arr l2 (l2 + ph)) with
        | .eq => lexCmp (sliceL arr (l1 + ph) (l1 + len)) (sliceL arr (l2 + ph) (l2 + len))
        | o => o := by
    rw [hS1, hS2, lexCmp_append _ _ _ _ hlA]
  unfold pairCmpN
  simp only
  rw [hx, hy, happ]
  rcases hcase : lexCmp (sliceL arr l1 (l1 + ph)) (sliceL arr l2 (l2 + ph))
    with _ | _ | _
  · rfl
  · -- equal blocks: the overlap parts agree, so the B comparison reduces to R
    have hAeq : sliceL arr l1 (l1 + ph) = sliceL arr l2 (l2 + ph) :=
      (lexCmp_eq_iff _ _).1 hcase
    have hO1 : sliceL arr (l1 + len - ph) (l1 + ph)
        = (sliceL arr l1 (l1 + ph)).drop (len - ph) := by
      rw [drop_sliceL]
      congr 1
      omega
    have hO2 : sliceL arr (l2 + len - ph) (l2 + ph)
        = (sliceL arr l2 (l2 + ph)).drop (len - ph) := by
      rw [drop_sliceL]
      congr 1
      omega
    have hOeq : sliceL arr (l1 + len - ph) (l1 + ph)
        = sliceL arr (l2 + len - ph) (l2 + ph) := by
      rw [hO1, hO2, hAeq]
    have hB1 : sliceL arr (l1 + len - ph) (l1 + len)
        = sliceL arr (l1 + len - ph) (l1 + ph) ++ sliceL arr (l1 + ph) (l1 + len) :=
      (sliceL_append arr _ (l1 + ph) (l1 + len) (by omega) (by omega)).symm
    have hB2 : sliceL arr (l2 + len - ph) (l2 + len)
        = sliceL arr (l2 + len - ph) (l2 + ph) ++ sliceL arr (l2 + ph) (l2 + len) :=
      (sliceL_append arr _ (l2 + ph) (l2 + len) (by omega) (by omega)).symm
    have hlO : (sliceL arr (l1 + len - ph) (l1 + ph)).length
        = (sliceL arr (l2 + len - ph) (l2 + ph)).length := by
      rw [length_sliceL arr _ _ (by omega), length_sliceL arr _ _ (by omega)]
      omega
    rw [hB1, hB2, lexCmp_append _ _ _ _ hlO, hOeq, lexCmp_self]
  · rfl

theorem dbf_cmp_eq_lexCmp {α : Type} [Inhabited α] [LinearOrder α]
    (arr : List α) (d : DBF) (hb : DBF.build arr = Option.some d)
    (l1 r1 l2 r2 : Nat) (h11 : l1 < r1) (h12 : r1 ≤ arr.length)
    (h21 : l2 < r2) (h22 : r2 ≤ arr.length) :
    d.cmp l1 r1 l2 r2 = lexCmp (sliceL arr l1 r1) (sliceL arr l2 r2) := by
  set c : Nat := min (r1 - l1) (r2 - l2) with hc
  have hc1 : 1 ≤ c := by omega
  have hcmp : d.cmp l1 r1 l2 r2
      = match pairCmpN (d.get_repr l1 (l1 + c)) (d.get_repr l2 (l2 + c)) with
        | .eq => cmpOf (r1 - l1) (r2 - l2)
        | o => o := rfl
  have hP1 : sliceL arr l1 r1 = sliceL arr l1 (l1 + c) ++ sliceL arr (l1 + c) r1 := by
    rw [sliceL_append arr l1 (l1 + c) r1 (by omega) (by omega)]
  have hP2 : sliceL arr l2 r2 = sliceL arr l2 (l2 + c) ++ sliceL arr (l2 + c) r2 := by
    rw [sliceL_append arr l2 (l2 + c) r2 (by omega) (by omega)]
  have hlP : (sliceL arr l1 (l1 + c)).length = (sliceL arr l2 (l2 + c)).length := by
    rw [length_sliceL arr _ _ (by omega), length_sliceL arr _ _ (by omega)]
    omega
  rw [hcmp, get_repr_cmp arr d hb c l1 l2 hc1 (by omega) (by omega),
    hP1, hP2, lexCmp_append _ _ _ _ hlP]
  rcases hcase : lexCmp (sliceL arr l1 (l1 + c)) (sliceL arr l2 (l2 + c)) with _ | _ | _
  · rfl
  · -- equal common prefixes: the tail comparison is the length comparison
    have hT1len : (sliceL arr (l1 + c) r1).length = r1 - l1 - c :=
      by rw [length_sliceL arr _ _ h12]; omega
    have hT2len : (sliceL arr (l2 + c) r2).length = r2 - l2 - c :=
      by rw [length_sliceL arr _ _ h22]; omega
    rcases Nat.lt_trichotomy (r1 - l1) (r2 - l2) with hlt | heq | hgt
    · have h10 : r1 - l1 - c = 0 := by omega
      have h20 : 0 < r2 - l2 - c := by omega
      have hT1 : sliceL arr (l1 + c) r1 = [] :=
        List.length_eq_zero.1 (by omega)
      rcases hT2e : sliceL arr (l2 + c) r2 with _ | ⟨x, xs⟩
      · rw [hT2e] at hT2len
        simp at hT2len
        omega
      · rw [hT1, (cmpOf_lt_iff _ _).2 hlt]
        rfl
    · have h10 : r1 - l1 - c = 0 := by omega
      have h20 : r2 - l2 - c = 0 := by omega
      have hT1 : sliceL arr (l1 + c) r1 = [] := List.length_eq_zero.1 (by omega)
      have hT2 : sliceL arr (l2 + c) r2 = [] := List.length_eq_zero.1 (by omega)
      rw [hT1, hT2, heq, cmpOf_self]
      rfl
    · have h20 : r2 - l2 - c = 0 := by omega
      have h10 : 0 < r1 - l1 - c := by omega
      have hT2 : sliceL arr (l2 + c) r2 = [] := List.length_eq_zero.1 (by omega)
      rcases hT1e : sliceL arr (l1 + c) r1 with _ | ⟨x, xs⟩
      · rw [hT1e] at hT1len
        simp at hT1len
        omega
      · rw [hT2, (cmpOf_gt_iff _ _).2 hgt]
        rfl
  · rfl

/-! ### The sentinel-padded sequence -/

theorem Pad.none_lt_some {α : Type} [LinearOrder α] (a : α) :
    (Pad.none : Pad α) < Pad.some a := by
  rw [lt_iff_le_not_le]
  exact ⟨trivial, fun h => h⟩

theorem Pad.some_lt_some {α : Type} [LinearOrder α] (a b : α) :
    (Pad.some a : Pad α) < Pad.some b ↔ a < b := by
  rw [lt_iff_le_not_le, lt_iff_le_not_le]
  exact Iff.rfl

theorem Pad.some_inj_iff {α : Type} (a b : α) :
    (Pad.some a : Pad α) = Pad.some b ↔ a = b := by
  constructor
  · intro h
    cases h
    rfl
  · intro h
    rw [h]

theorem cmpOf_pad_some {α : Type} [LinearOrder α] (a b : α) :
    cmpOf (Pad.some a : Pad α) (Pad.some b) = cmpOf a b := by
  unfold cmpOf
  rcases lt_trichotomy a b with h | h | h
  · rw [if_pos ((Pad.some_lt_some a b).2 h), if_pos h]
  · subst h
    rw [if_neg (by rw [Pad.some_lt_some]; exact lt_irrefl a), if_pos rfl,
      if_neg (lt_irrefl a), if_pos rfl]
  · rw [if_neg (by rw [Pad.some_lt_some]; exact not_lt_of_lt h),
      if_neg (by rw [Pad.some_inj_iff]; exact ne_of_gt h),
      if_neg (not_lt_of_lt h), if_neg (ne_of_gt h)]

theorem cmpOf_pad_none_some {α : Type} [LinearOrder α] (a : α) :
    cmpOf (Pad.none : Pad α) (Pad.some a) = .lt := by
  unfold cmpOf
  rw [if_pos (Pad.none_lt_some a)]

theorem cmpOf_pad_some_none {α : Type} [LinearOrder α] (a : α) :
    cmpOf (Pad.some a : Pad α) Pad.none = .gt := by
  unfold cmpOf
  rw [if_neg (by intro h; exact absurd (lt_trans h (Pad.none_lt_some a)) (lt_irrefl _)),
    if_neg (by intro h; cases h)]

/-- Comparing sentinel-terminated paddings of two distinct sequences is the same
as comparing the sequences, whatever follows the first sentinel. -/
theorem lexCmp_pad_sentinel {α : Type} [LinearOrder α] :
    ∀ (xs ys : List α) (u v : List (Pad α)), xs ≠ ys →
    lexCmp (xs.map Pad.some ++ Pad.none :: u) (ys.map Pad.some ++ Pad.none :: v)
      = lexCmp xs ys := by
  intro xs
  induction xs with
  | nil =>
    intro ys u v hne
    cases ys with
    | nil => exact absurd rfl hne
    | cons y ys' =>
      simp only [List.map_nil, List.nil_append, List.map_cons, List.cons_append]
      simp only [lexCmp, cmpOf_pad_none_some]
  | cons x xs' ih =>
    intro ys u v hne
    cases ys with
    | nil =>
      simp only [List.map_nil, List.nil_append, List.map_cons, List.cons_append]
      simp only [lexCmp, cmpOf_pad_some_none]
    | cons y ys' =>
      simp only [List.map_cons, List.cons_append]
      rcases hc : cmpOf x y with _ | _ | _
      · simp only [lexCmp, cmpOf_pad_some, hc]
      · have hxy : x = y := (cmpOf_eq_iff x y).1 hc
        subst hxy
        have hne' : xs' ≠ ys' := by
          intro h
          exact hne (by rw [h])
        simp only [lexCmp, cmpOf_pad_some, hc]
        exact ih ys' u v hne'
      · simp only [lexCmp, cmpOf_pad_some, hc]

theorem padded_length {α : Type} (arr : List α) :
    (arr.map Pad.some ++ [Pad.none]).length = arr.length + 1 := by
  simp

theorem padded_getD_last {α : Type} (arr : List α) :
    (arr.map Pad.some ++ [Pad.none]).getD arr.length default = Pad.none := by
  rw [List.getD_eq_getElem _ _ (by simp)]
  rw [List.getElem_append_right (by simp)]
  simp

theorem padded_getD_lt {α : Type} (arr : List α) (i : Nat) (hi : i < arr.length) :
    (arr.map Pad.some ++ [Pad.none]).getD i default = Pad.some arr[i] := by
  rw [List.getD_eq_getElem _ _ (by simp; omega)]
  rw [List.getElem_append_left (by simpa using hi)]
  rw [List.getElem_map]

theorem padded_getD_none_iff {α : Type} (arr : List α) (j : Nat)
    (hj : j ≤ arr.length) :
    (arr.map Pad.some ++ [Pad.none]).getD j default = Pad.none ↔ j = arr.length := by
  rcases Nat.lt_or_ge j arr.length with h | h
  · rw [padded_getD_lt arr j h]
    constructor
    · intro hc
      cases hc
    · intro hc
      omega
  · have hje : j = arr.length := by omega
    subst hje
    rw [padded_getD_last]
    simp

theorem padded_drop {α : Type} (arr : List α) (p : Nat) (hp : p ≤ arr.length) :
    (arr.map Pad.some ++ [Pad.none]).drop p = (arr.drop p).map Pad.some ++ [Pad.none] := by
  rw [List.drop_append_of_le_length (by simpa using hp), List.map_drop]

theorem take_all_of_length {α : Type} (l : List α) (m : Nat) (h : l.length = m) :
    l.take m = l := by
  rw [← h]
  exact List.take_length l

theorem cyc_padded_decomp {α : Type} [LinearOrder α] (arr : List α) (p m : Nat)
    (hp : p ≤ arr.length) (hm : arr.length + 1 ≤ m) :
    cyc (arr.map Pad.some ++ [Pad.none]) p m
      = (arr.drop p).map Pad.some
        ++ Pad.none :: cyc (arr.map Pad.some ++ [Pad.none]) 0 (m - (arr.length + 1 - p)) := by
  set padded : List (Pad α) := arr.map Pad.some ++ [Pad.none] with hpad
  have hplen : padded.length = arr.length + 1 := padded_length arr
  have hmsum : m = (padded.length - p) + (m - (padded.length - p)) := by omega
  rw [hmsum, cyc_split]
  have hmod : (p + (padded.length - p)) % padded.length = 0 := by
    have : p + (padded.length - p) = padded.length := by omega
    rw [this, Nat.mod_self]
  rw [hmod]
  have hfirst : cyc padded p (padded.length - p) = padded.drop p := by
    rw [cyc_eq_sliceL padded p _ (by omega)]
    unfold sliceL
    have harith : p + (padded.length - p) - p = padded.length - p := by omega
    rw [harith]
    exact take_all_of_length _ _ (by rw [List.length_drop])
  rw [hfirst, hpad, padded_drop arr p hp]
  rw [List.append_assoc, List.singleton_append]
  have harith2 : padded.length - p = arr.length + 1 - p := by omega
  rw [hpad] at harith2
  rw [harith2]
  have harith3 : arr.length + 1 - p + (m - (arr.length + 1 - p)) - (arr.length + 1 - p)
      = m - (arr.length + 1 - p) := by omega
  rw [harith3]

theorem getD_cyc {α : Type} [Inhabited α] (arr : List α) (i m t : Nat) (ht : t < m) :
    (cyc arr i m).getD t default = arr.getD ((i + t) % arr.length) default := by
  rw [List.getD_eq_getElem _ _ (by rw [length_cyc]; exact ht)]
  exact getElem_cyc arr i m t (by rw [length_cyc]; exact ht)

theorem lexCmp_cyc_padded {α : Type} [LinearOrder α] (arr : List α) (m p q : Nat)
    (hp : p ≤ arr.length) (hq : q ≤ arr.length) (hpq : p ≠ q)
    (hm : arr.length + 1 ≤ m) :
    lexCmp (cyc (arr.map Pad.some ++ [Pad.none]) p m)
      (cyc (arr.map Pad.some ++ [Pad.none]) q m)
      = lexCmp (arr.drop p) (arr.drop q) := by
  rw [cyc_padded_decomp arr p m hp hm, cyc_padded_decomp arr q m hq hm]
  apply lexCmp_pad_sentinel
  intro h
  apply hpq
  have hlen := congrArg List.length h
  rw [List.length_drop, List.length_drop] at hlen
  omega

theorem cyc_padded_inj {α : Type} [LinearOrder α] (arr : List α) (m p q : Nat)
    (hp : p ≤ arr.length) (hq : q ≤ arr.length) (hm : arr.length + 1 ≤ m)
    (h : cyc (arr.map Pad.some ++ [Pad.none]) p m
      = cyc (arr.map Pad.some ++ [Pad.none]) q m) : p = q := by
  set padded : List (Pad α) := arr.map Pad.some ++ [Pad.none] with hpad
  have hplen : padded.length = arr.length + 1 := padded_length arr
  have h1 := congrArg (fun l => l.getD (arr.length - p) (default : Pad α)) h
  simp only at h1
  rw [getD_cyc _ _ _ _ (by omega), getD_cyc _ _ _ _ (by omega), hplen] at h1
  have hl : (p + (arr.length - p)) % (arr.length + 1) = arr.length := by
    have harith : p + (arr.length - p) = arr.length := by omega
    rw [harith]
    exact Nat.mod_eq_of_lt (by omega)
  rw [hl, hpad, padded_getD_last arr] at h1
  have hmlt : (q + (arr.length - p)) % (arr.length + 1) ≤ arr.length := by
    have := Nat.mod_lt (q + (arr.length - p)) (show 0 < arr.length + 1 by omega)
    omega
  have h2 := (padded_getD_none_iff arr _ hmlt).1 h1.symm
  rcases Nat.lt_or_ge (q + (arr.length - p)) (arr.length + 1) with hcase | hcase
  · rw [Nat.mod_eq_of_lt hcase] at h2
    omega
  · have hsub : (q + (arr.length - p)) % (arr.length + 1)
        = q + (arr.length - p) - (arr.length + 1) := by
      rw [Nat.mod_eq_sub_mod hcase]
      exact Nat.mod_eq_of_lt (by omega)
    rw [hsub] at h2
    omega

/-! ### The inversion loops of `suffix_array` and `lcp` -/

theorem extractGo_length : ∀ (l : List Nat) (s : Nat) (sa : List Nat),
    (extractGo l s sa).length = sa.length := by
  intro l
  induction l with
  | nil => intro s sa; rfl
  | cons x rest ih =>
    intro s sa
    have hstep : extractGo (x :: rest) s sa
        = extractGo rest (s + 1) (if x ≠ 0 then sa.set (x - 1) s else sa) := rfl
    rw [hstep, ih]
    by_cases hx : x ≠ 0
    · rw [if_pos hx, List.length_set]
    · rw [if_neg hx]

theorem extractGo_untouched : ∀ (l : List Nat) (s : Nat) (sa : List Nat) (k : Nat),
    (∀ x ∈ l, x = 0 ∨ x - 1 ≠ k) →
    getl (extractGo l s sa) k = getl sa k := by
  intro l
  induction l with
  | nil => intro s sa k _; rfl
  | cons x rest ih =>
    intro s sa k hl
    have hstep : extractGo (x :: rest) s sa
        = extractGo rest (s + 1) (if x ≠ 0 then sa.set (x - 1) s else sa) := rfl
    rw [hstep, ih (s + 1) _ k (fun y hy => hl y (List.mem_cons_of_mem _ hy))]
    rcases hl x (List.mem_cons_self _ _) with hx | hx
    · rw [if_neg (by omega)]
    · by_cases hx0 : x ≠ 0
      · rw [if_pos hx0, getl_set_ne _ _ _ _ hx]
      · rw [if_neg hx0]

theorem extractGo_write : ∀ (l : List Nat) (s : Nat) (sa : List Nat) (k i0 : Nat),
    s ≤ i0 → i0 - s < l.length → l.getD (i0 - s) 0 = k + 1 →
    (∀ j, j < l.length → l.getD j 0 = k + 1 → s + j = i0) →
    k < sa.length →
    getl (extractGo l s sa) k = i0 := by
  intro l
  induction l with
  | nil => intro s sa k i0 _ h2; simp at h2
  | cons x rest ih =>
    intro s sa k i0 h1 h2 h3 h4 h5
    have hstep : extractGo (x :: rest) s sa
        = extractGo rest (s + 1) (if x ≠ 0 then sa.set (x - 1) s else sa) := rfl
    rcases Nat.eq_or_lt_of_le h1 with heq | hlt
    · -- the head is the unique occurrence
      have hi0 : i0 - s = 0 := by omega
      rw [hi0] at h3
      have hx : x = k + 1 := h3
      rw [hstep]
      have hrest : ∀ y ∈ rest, y = 0 ∨ y - 1 ≠ k := by
        intro y hy
        by_cases hy0 : y = 0
        · exact Or.inl hy0
        · refine Or.inr ?_
          intro hyk
          have hyv : y = k + 1 := by omega
          obtain ⟨j, hj, hje⟩ := List.mem_iff_getElem.1 hy
          have : rest.getD j 0 = k + 1 := by
            rw [List.getD_eq_getElem _ _ hj, hje, hyv]
          have := h4 (j + 1) (by simpa using hj) (by rw [getD_cons_succ]; exact this)
          omega
      rw [extractGo_untouched rest (s + 1) _ k hrest]
      rw [if_pos (by omega)]
      have hxk : x - 1 = k := by omega
      rw [hxk, getl_set_self _ _ _ h5]
      omega
    · -- the occurrence is further on
      rw [hstep]
      apply ih (s + 1) _ k i0 (by omega) (by simp at h2; omega)
      · rw [← getD_cons_succ x rest (i0 - (s + 1)) 0]
        have harith : i0 - (s + 1) + 1 = i0 - s := by omega
        rw [harith]
        exact h3
      · intro j hj hjv
        have := h4 (j + 1) (by simpa using hj) (by rw [getD_cons_succ]; exact hjv)
        omega
      · by_cases hx0 : x ≠ 0
        · rw [if_pos hx0, List.length_set]
          exact h5
        · rw [if_neg hx0]
          exact h5

theorem invGo_length : ∀ (l : List Nat) (s : Nat) (inv : List Nat),
    (invGo l s inv).length = inv.length := by
  intro l
  induction l with
  | nil => intro s inv; rfl
  | cons x rest ih =>
    intro s inv
    have hstep : invGo (x :: rest) s inv = invGo rest (s + 1) (inv.set x s) := rfl
    rw [hstep, ih, List.length_set]

theorem invGo_untouched : ∀ (l : List Nat) (s : Nat) (inv : List Nat) (pos : Nat),
    (∀ x ∈ l, x ≠ pos) →
    getl (invGo l s inv) pos = getl inv pos := by
  intro l
  induction l with
  | nil => intro s inv pos _; rfl
  | cons x rest ih =>
    intro s inv pos hl
    have hstep : invGo (x :: rest) s inv = invGo rest (s + 1) (inv.set x s) := rfl
    rw [hstep, ih (s + 1) _ pos (fun y hy => hl y (List.mem_cons_of_mem _ hy)),
      getl_set_ne _ _ _ _ (hl x (List.mem_cons_self _ _))]

theorem invGo_write : ∀ (l : List Nat) (s : Nat) (inv : List Nat) (pos t0 : Nat),
    s ≤ t0 → t0 - s < l.length → l.getD (t0 - s) 0 = pos →
    (∀ j, j < l.length → l.getD j 0 = pos → s + j = t0) →
    pos < inv.length →
    getl (invGo l s inv) pos = t0 := by
  intro l
  induction l with
  | nil => intro s inv pos t0 _ h2; simp at h2
  | cons x rest ih =>
    intro s inv pos t0 h1 h2 h3 h4 h5
    have hstep : invGo (x :: rest) s inv = invGo rest (s + 1) (inv.set x s) := rfl
    rcases Nat.eq_or_lt_of_le h1 with heq | hlt
    · have ht0 : t0 - s = 0 := by omega
      rw [ht0] at h3
      have hx : x = pos := h3
      rw [hstep]
      have hrest : ∀ y ∈ rest, y ≠ pos := by
        intro y hy hyp
        obtain ⟨j, hj, hje⟩ := List.mem_iff_getElem.1 hy
        have : rest.getD j 0 = pos := by
          rw [List.getD_eq_getElem _ _ hj, hje, hyp]
        have := h4 (j + 1) (by simpa using hj) (by rw [getD_cons_succ]; exact this)
        omega
      rw [invGo_untouched rest (s + 1) _ pos hrest, hx,
        getl_set_self _ _ _ h5]
      omega
    · rw [hstep]
      apply ih (s + 1) _ pos t0 (by omega) (by simp at h2; omega)
      · rw [← getD_cons_succ x rest (t0 - (s + 1)) 0]
        have harith : t0 - (s + 1) + 1 = t0 - s := by omega
        rw [harith]
        exact h3
      · intro j hj hjv
        have := h4 (j + 1) (by simpa using hj) (by rw [getD_cons_succ]; exact hjv)
        omega
      · rw [List.length_set]
        exact h5

/-! ### Correctness of `suffix_array` -/

theorem suffix_array_spec {α : Type} [LinearOrder α] (arr : List α) :
    (suffix_array arr).length = arr.length ∧
    (suffix_array arr).Perm (List.range arr.length) ∧
    (∀ t1 t2, t1 < arr.length → t2 < arr.length →
      lexCmp (arr.drop (getl (suffix_array arr) t1))
        (arr.drop (getl (suffix_array arr) t2)) = cmpOf t1 t2) := by
  obtain ⟨d, hb, hdn, hdl2, hok, hup, hint⟩ :=
    build_spec (arr.map Pad.some ++ [Pad.none]) (by rw [padded_length]; omega)
  have hplen := padded_length arr
  have hsa : suffix_array arr = extractSA d.last_row arr.length := by
    have hunfold : suffix_array arr
        = (match DBF.build (arr.map Pad.some ++ [Pad.none]) with
          | Option.none => ([] : List Nat)
          | Option.some d => extractSA d.last_row arr.length) := rfl
    rw [hunfold, hb]
  have hH : d.dbf.length - 1 < d.dbf.length := by omega
  have hlast : d.last_row = d.dbf.getD (d.dbf.length - 1) [] := rfl
  obtain ⟨hrlen, hrbound, hriso, hrdens⟩ := hok (d.dbf.length - 1) hH
  rw [← hlast] at hrlen hrbound hriso hrdens
  rw [hplen] at hrlen
  have h2H : arr.length + 1 ≤ 2 ^ (d.dbf.length - 1) := by
    rw [hplen] at hup
    exact hup
  have hinj : ∀ p q, p ≤ arr.length → q ≤ arr.length →
      getl d.last_row p = getl d.last_row q → p = q := by
    intro p q hp hq he
    apply cyc_padded_inj arr (2 ^ (d.dbf.length - 1)) p q hp hq h2H
    exact (rowIso_eq_iff _ _ _ hriso p q (by rw [padded_length]; omega)
      (by rw [padded_length]; omega)).mp he
  have hlt_n : ∀ p, p < arr.length →
      getl d.last_row arr.length < getl d.last_row p := by
    intro p hp
    have hcmp := hriso arr.length (by rw [padded_length]; omega) p
      (by rw [padded_length]; omega)
    rw [cyc_padded_decomp arr arr.length (2 ^ (d.dbf.length - 1)) le_rfl h2H,
      cyc_padded_decomp arr p (2 ^ (d.dbf.length - 1)) (Nat.le_of_lt hp) h2H,
      List.drop_length] at hcmp
    rcases hdp : arr.drop p with _ | ⟨a, l2⟩
    · exfalso
      have hlen := congrArg List.length hdp
      rw [List.length_drop] at hlen
      simp only [List.length_nil] at hlen
      omega
    · rw [hdp] at hcmp
      simp only [List.map_nil, List.map_cons, List.nil_append, List.cons_append] at hcmp
      simp only [lexCmp, cmpOf_pad_none_some] at hcmp
      exact (cmpOf_lt_iff _ _).mp hcmp
  have hn0 : getl d.last_row arr.length = 0 := by
    rcases Nat.eq_zero_or_pos (getl d.last_row arr.length) with h | h
    · exact h
    · exfalso
      obtain ⟨j, hj, hj0⟩ := hrdens arr.length (by rw [padded_length]; omega) 0
        (by omega)
      rcases Nat.lt_or_ge j arr.length with hjn | hjn
      · have := hlt_n j hjn
        omega
      · have hjeq : j = arr.length := by
          rw [padded_length] at hj
          omega
        rw [hjeq] at hj0
        omega
  have hsurj : ∀ k, k ≤ arr.length → ∃ i, i ≤ arr.length ∧ getl d.last_row i = k := by
    intro k hk
    have hbnd : ∀ i : Fin (arr.length + 1), getl d.last_row i < arr.length + 1 := by
      intro i
      have hi := hrbound i (by rw [padded_length]; exact i.isLt)
      rw [padded_length] at hi
      exact hi
    have hfinj : Function.Injective
        (fun i : Fin (arr.length + 1) =>
          (⟨getl d.last_row i, hbnd i⟩ : Fin (arr.length + 1))) := by
      intro a b hab
      exact Fin.ext (hinj a b (Nat.lt_succ_iff.mp a.isLt) (Nat.lt_succ_iff.mp b.isLt)
        (congrArg Fin.val hab))
    have hfsurj := (Finite.injective_iff_bijective.mp hfinj).surjective
    obtain ⟨i, hi⟩ := hfsurj ⟨k, by omega⟩
    exact ⟨i, Nat.lt_succ_iff.mp i.isLt, congrArg Fin.val hi⟩
  have hpre : ∀ k, k < arr.length → ∃ i, i < arr.length ∧ getl d.last_row i = k + 1 := by
    intro k hk
    obtain ⟨i, hi, hie⟩ := hsurj (k + 1) (by omega)
    rcases Nat.eq_or_lt_of_le hi with heq | hlt
    · exfalso
      rw [heq, hn0] at hie
      omega
    · exact ⟨i, hlt, hie⟩
  have hxlen : (suffix_array arr).length = arr.length := by
    rw [hsa]
    unfold extractSA
    rw [extractGo_length, List.length_replicate]
  have hsaval : ∀ t, t < arr.length →
      getl (suffix_array arr) t < arr.length ∧
      getl d.last_row (getl (suffix_array arr) t) = t + 1 := by
    intro t ht
    obtain ⟨i, hi, hie⟩ := hpre t ht
    have hwrite : getl (extractSA d.last_row arr.length) t = i := by
      unfold extractSA
      apply extractGo_write d.last_row 0 (List.replicate arr.length 0) t i
        (Nat.zero_le i)
      · rw [Nat.sub_zero, hrlen]
        omega
      · rw [Nat.sub_zero]
        exact hie
      · intro j hj hjv
        have hji := hinj j i (by rw [hrlen] at hj; omega) (by omega)
          (by rw [hie]; exact hjv)
        omega
      · rw [List.length_replicate]
        exact ht
    rw [hsa, hwrite]
    exact ⟨hi, hie⟩
  have hnodup : (suffix_array arr).Nodup := by
    rw [List.nodup_iff_injective_get]
    intro a b hab
    have ha : (a : Nat) < arr.length := by rw [← hxlen]; exact a.isLt
    have hb2 : (b : Nat) < arr.length := by rw [← hxlen]; exact b.isLt
    have hga : (suffix_array arr).get a = getl (suffix_array arr) (a : Nat) := by
      rw [List.get_eq_getElem, ← getl_eq_getElem _ _ a.isLt]
    have hgb : (suffix_array arr).get b = getl (suffix_array arr) (b : Nat) := by
      rw [List.get_eq_getElem, ← getl_eq_getElem _ _ b.isLt]
    rw [hga, hgb] at hab
    have h1 := (hsaval a ha).2
    have h2 := (hsaval b hb2).2
    rw [hab, h2] at h1
    exact Fin.ext (by omega)
  have hperm : (suffix_array arr).Perm (List.range arr.length) := by
    apply List.Subperm.perm_of_length_le
    · apply List.subperm_of_subset hnodup
      intro x hx
      rw [List.mem_iff_getElem] at hx
      obtain ⟨idx, hidx, hxe⟩ := hx
      rw [List.mem_range, ← hxe]
      have hidx2 : idx < arr.length := by rw [← hxlen]; exact hidx
      have hv := (hsaval idx hidx2).1
      rw [getl_eq_getElem _ _ hidx] at hv
      exact hv
    · rw [List.length_range, hxlen]
  refine ⟨hxlen, hperm, ?_⟩
  intro t1 t2 ht1 ht2
  rcases eq_or_ne t1 t2 with heq | hne
  · rw [heq, lexCmp_self, cmpOf_self]
  · obtain ⟨hp1, hr1⟩ := hsaval t1 ht1
    obtain ⟨hp2, hr2⟩ := hsaval t2 ht2
    have hpq : getl (suffix_array arr) t1 ≠ getl (suffix_array arr) t2 := by
      intro h
      rw [h, hr2] at hr1
      omega
    rw [← lexCmp_cyc_padded arr (2 ^ (d.dbf.length - 1)) _ _ (Nat.le_of_lt hp1)
      (Nat.le_of_lt hp2) hpq h2H]
    rw [← hriso (getl (suffix_array arr) t1) (by rw [padded_length]; omega)
      (getl (suffix_array arr) t2) (by rw [padded_length]; omega)]
    rw [hr1, hr2, cmpOf_nat_add_one]

/-! ### Correctness of the Kasai loop (`lcp`) -/

theorem getD_drop {α : Type} [Inhabited α] (l : List α) (i t : Nat)
    (h : i + t < l.length) :
    (l.drop i).getD t default = l.getD (i + t) default := by
  rw [List.getD_eq_getElem _ _ (by rw [List.length_drop]; omega),
    List.getD_eq_getElem _ _ h]
  exact List.getElem_drop _

theorem lcpLen_getD_eq {α : Type} [DecidableEq α] [Inhabited α] :
    ∀ (x y : List α) (t : Nat), t < lcpLen x y →
      x.getD t default = y.getD t default := by
  intro x
  induction x with
  | nil => intro y t ht; cases y <;> simp [lcpLen] at ht
  | cons a as ih =>
    intro y t ht
    cases y with
    | nil => simp [lcpLen] at ht
    | cons b bs =>
      by_cases hab : a = b
      · subst hab
        cases t with
        | zero => rfl
        | succ t' =>
          rw [lcpLen_cons_same] at ht
          rw [getD_cons_succ, getD_cons_succ]
          exact ih bs t' (by omega)
      · rw [lcpLen_cons_of_ne _ _ hab] at ht
        omega

theorem extendEq_spec {α : Type} [DecidableEq α] [Inhabited α] (arr : List α)
    (i j : Nat) :
    ∀ (fuel k : Nat), k ≤ lcpLen (arr.drop i) (arr.drop j) →
      lcpLen (arr.drop i) (arr.drop j) - k ≤ fuel →
      extendEq arr arr.length i j fuel k = lcpLen (arr.drop i) (arr.drop j) := by
  intro fuel
  induction fuel with
  | zero =>
    intro k hk hf
    have hke : k = lcpLen (arr.drop i) (arr.drop j) := by omega
    simpa [extendEq] using hke
  | succ f ih =>
    intro k hk hf
    rcases Nat.eq_or_lt_of_le hk with heq | hlt
    · subst heq
      have hcond : ¬ (i + lcpLen (arr.drop i) (arr.drop j) < arr.length ∧
          j + lcpLen (arr.drop i) (arr.drop j) < arr.length ∧
          arr.getD (i + lcpLen (arr.drop i) (arr.drop j)) default
            = arr.getD (j + lcpLen (arr.drop i) (arr.drop j)) default) := by
      -- the loop must stop exactly at the true common-prefix length
        rintro ⟨h1, h2, h3⟩
        apply lcpLen_stop (arr.drop i) (arr.drop j)
          (by rw [List.length_drop]; omega) (by rw [List.length_drop]; omega)
        rw [getD_drop _ _ _ h1, getD_drop _ _ _ h2]
        exact h3
      simp only [extendEq]
      rw [if_neg hcond]
    · have hlen1 := lcpLen_le_left (arr.drop i) (arr.drop j)
      have hlen2 := lcpLen_le_right (arr.drop i) (arr.drop j)
      rw [List.length_drop] at hlen1
      rw [List.length_drop] at hlen2
      have hcond : i + k < arr.length ∧ j + k < arr.length ∧
          arr.getD (i + k) default = arr.getD (j + k) default := by
        refine ⟨by omega, by omega, ?_⟩
        have h6 := lcpLen_getD_eq (arr.drop i) (arr.drop j) k hlt
        rw [getD_drop _ _ _ (by omega), getD_drop _ _ _ (by omega)] at h6
        exact h6
      simp only [extendEq]
      rw [if_pos hcond]
      exact ih (k + 1) (by omega) (by omega)

theorem lcp_spec {α : Type} [LinearOrder α] [Inhabited α] (arr : List α) :
    (lcp arr).1 = suffix_array arr ∧
    (lcp arr).2.length = arr.length ∧
    getl (lcp arr).2 0 = 0 ∧
    (∀ t, 1 ≤ t → t < arr.length →
      getl (lcp arr).2 t
        = lcpLen (arr.drop (getl (suffix_array arr) (t - 1)))
            (arr.drop (getl (suffix_array arr) t))) := by
  obtain ⟨hsalen, hsaperm, hsacmp⟩ := suffix_array_spec arr
  set sa := suffix_array arr with hsadef
  set inv := invGo sa 0 (List.replicate arr.length 0) with hinvdef
  set F := lcpBody arr arr.length sa inv with hFdef2
  set init : List Nat × Nat := (List.replicate arr.length 0, 0) with hinitdef
  have hunfold : lcp arr = (sa, ((List.range arr.length).foldl F init).1) := rfl
  have hvals : ∀ t, t < arr.length → getl sa t < arr.length := by
    intro t ht
    have hmem : getl sa t ∈ sa := by
      rw [getl_eq_getElem _ _ (by rw [hsalen]; exact ht)]
      exact List.getElem_mem _
    exact List.mem_range.1 ((hsaperm.mem_iff).1 hmem)
  have hsainj : ∀ t1 t2, t1 < arr.length → t2 < arr.length →
      getl sa t1 = getl sa t2 → t1 = t2 := by
    intro t1 t2 h1 h2 he
    have hc := hsacmp t1 t2 h1 h2
    rw [he, lexCmp_self] at hc
    exact (cmpOf_eq_iff _ _).1 hc.symm
  have hsasurj : ∀ v, v < arr.length → ∃ t, t < arr.length ∧ getl sa t = v := by
    intro v hv
    have hmem : v ∈ sa := (hsaperm.mem_iff).2 (List.mem_range.2 hv)
    rw [List.mem_iff_getElem] at hmem
    obtain ⟨t, ht, hte⟩ := hmem
    refine ⟨t, by rw [hsalen] at ht; exact ht, ?_⟩
    rw [getl_eq_getElem _ _ ht]
    exact hte
  have hinv : ∀ t, t < arr.length → getl inv (getl sa t) = t := by
    intro t ht
    rw [hinvdef]
    apply invGo_write sa 0 (List.replicate arr.length 0) (getl sa t) t (Nat.zero_le t)
    · rw [Nat.sub_zero, hsalen]
      exact ht
    · rw [Nat.sub_zero]
      rfl
    · intro p hp hpe
      rw [hsalen] at hp
      have := hsainj p t hp ht hpe
      omega
    · rw [List.length_replicate]
      exact hvals t ht
  have hinvval : ∀ v, v < arr.length →
      getl inv v < arr.length ∧ getl sa (getl inv v) = v := by
    intro v hv
    obtain ⟨t, ht, hte⟩ := hsasurj v hv
    have h1 := hinv t ht
    rw [hte] at h1
    rw [h1]
    exact ⟨ht, hte⟩
  have hinvlt : ∀ v, v < arr.length → getl inv v < arr.length :=
    fun v hv => (hinvval v hv).1
  have main : ∀ i, i ≤ arr.length →
      ((List.range i).foldl F init).1.length = arr.length ∧
      getl ((List.range i).foldl F init).1 0 = 0 ∧
      (∀ t, 1 ≤ t → t < arr.length → getl sa (t - 1) < i →
        getl ((List.range i).foldl F init).1 t
          = lcpLen (arr.drop (getl sa (t - 1))) (arr.drop (getl sa t))) ∧
      (i < arr.length → getl inv i ≠ arr.length - 1 →
        ((List.range i).foldl F init).2
          ≤ lcpLen (arr.drop i) (arr.drop (getl sa (getl inv i + 1)))) := by
    intro i
    induction i with
    | zero =>
      intro _
      simp only [List.range_zero, List.foldl_nil]
      refine ⟨?_, ?_, ?_, ?_⟩
      · rw [List.length_replicate]
      · exact getl_replicate _ _
      · intro t ht1 ht2 htlt
        exact absurd htlt (Nat.not_lt_zero _)
      · intro _ _
        exact Nat.zero_le _
    | succ i ih =>
      intro hi1
      obtain ⟨ih1, ih2, ih3, ih4⟩ := ih (by omega)
      rw [List.range_succ, List.foldl_append, List.foldl_cons, List.foldl_nil]
      set st := (List.range i).foldl F init with hstdef
      by_cases hq : getl inv i = arr.length - 1
      · have hF1 : (F st i).1 = st.1 := by
          rw [hFdef2]
          unfold lcpBody
          rw [if_pos hq]
        have hF2 : (F st i).2 = 0 := by
          rw [hFdef2]
          unfold lcpBody
          rw [if_pos hq]
        rw [hF1, hF2]
        refine ⟨ih1, ih2, ?_, ?_⟩
        · intro t ht1 ht2 htlt
          rcases Nat.lt_or_ge (getl sa (t - 1)) i with hlt | hge
          · exact ih3 t ht1 ht2 hlt
          · exfalso
            have heq2 : getl sa (t - 1) = i := by omega
            have hh := hinv (t - 1) (by omega)
            rw [heq2] at hh
            omega
        · intro _ _
          exact Nat.zero_le _
      · have hqlt : getl inv i < arr.length := hinvlt i (by omega)
        have hq1 : getl inv i + 1 < arr.length := by omega
        set j := getl sa (getl inv i + 1) with hjdef
        have hjlt : j < arr.length := hvals _ hq1
        have hsai : getl sa (getl inv i) = i := (hinvval i (by omega)).2
        set K := extendEq arr arr.length i j arr.length st.2 with hKdef
        have hF1 : (F st i).1 = st.1.set (getl inv i + 1) K := by
          rw [hFdef2, hKdef, hjdef]
          unfold lcpBody
          rw [if_neg hq]
        have hF2 : (F st i).2 = K - 1 := by
          rw [hFdef2, hKdef, hjdef]
          unfold lcpBody
          rw [if_neg hq]
        have hk1 : K = lcpLen (arr.drop i) (arr.drop j) := by
          rw [hKdef]
          apply extendEq_spec arr i j arr.length st.2
          · exact ih4 (by omega) hq
          · have h5 := lcpLen_le_left (arr.drop i) (arr.drop j)
            rw [List.length_drop] at h5
            omega
        rw [hF1, hF2]
        refine ⟨?_, ?_, ?_, ?_⟩
        · rw [List.length_set]
          exact ih1
        · rw [getl_set_ne _ _ _ _ (by omega)]
          exact ih2
        · intro t ht1 ht2 htlt
          by_cases hteq : t = getl inv i + 1
          · rw [hteq, getl_set_self _ _ _ (by rw [ih1]; omega), hk1]
            have harith : getl inv i + 1 - 1 = getl inv i := by omega
            rw [harith, hsai, ← hjdef]
          · rw [getl_set_ne _ _ _ _ (fun h => hteq h.symm)]
            rcases Nat.lt_or_ge (getl sa (t - 1)) i with hlt | hge
            · exact ih3 t ht1 ht2 hlt
            · exfalso
              have heq2 : getl sa (t - 1) = i := by omega
              have hh := hinv (t - 1) (by omega)
              rw [heq2] at hh
              omega
        · intro hin1 hq2
          rw [hk1]
          rcases Nat.eq_zero_or_pos (lcpLen (arr.drop i) (arr.drop j)) with hL0 | hLpos
          · rw [hL0]
            omega
          · rcases Nat.lt_or_ge (j + 1) arr.length with hjlt1 | hjge1
            · have hhead : arr.getD i default = arr.getD j default := by
                have h6 := lcpLen_getD_eq (arr.drop i) (arr.drop j) 0 hLpos
                rw [getD_drop _ _ _ (by omega), getD_drop _ _ _ (by omega)] at h6
                simpa using h6
              have hdropi : arr.drop i = arr.getD i default :: arr.drop (i + 1) := by
                rw [List.getD_eq_getElem _ _ (by omega)]
                exact List.drop_eq_getElem_cons (by omega)
              have hdropj : arr.drop j = arr.getD j default :: arr.drop (j + 1) := by
                rw [List.getD_eq_getElem _ _ (by omega)]
                exact List.drop_eq_getElem_cons (by omega)
              have hLsucc : lcpLen (arr.drop i) (arr.drop j)
                  = lcpLen (arr.drop (i + 1)) (arr.drop (j + 1)) + 1 := by
                rw [hdropi, hdropj, hhead, lcpLen_cons_same]
              have hord : lexCmp (arr.drop i) (arr.drop j) = Ordering.lt := by
                have h7 := hsacmp (getl inv i) (getl inv i + 1) (by omega) hq1
                rw [hsai, ← hjdef] at h7
                rw [h7]
                exact (cmpOf_lt_iff _ _).2 (by omega)
              have hord1 : lexCmp (arr.drop (i + 1)) (arr.drop (j + 1))
                  = Ordering.lt := by
                rw [hdropi, hdropj, hhead, lexCmp_cons_same] at hord
                exact hord
              have hin1lt : getl inv (i + 1) < arr.length := hinvlt _ hin1
              have hin2lt : getl inv (i + 1) + 1 < arr.length := by omega
              have hjp1lt : getl inv (j + 1) < arr.length := hinvlt _ hjlt1
              have hmono : getl inv (i + 1) < getl inv (j + 1) := by
                have h8 := hsacmp (getl inv (i + 1)) (getl inv (j + 1)) hin1lt hjp1lt
                rw [(hinvval (i + 1) hin1).2, (hinvval (j + 1) hjlt1).2] at h8
                rw [hord1] at h8
                exact (cmpOf_lt_iff _ _).1 h8.symm
              have hAB : lexCmp (arr.drop (i + 1))
                  (arr.drop (getl sa (getl inv (i + 1) + 1))) ≠ Ordering.gt := by
                have h9 := hsacmp (getl inv (i + 1)) (getl inv (i + 1) + 1) hin1lt hin2lt
                rw [(hinvval (i + 1) hin1).2] at h9
                rw [h9, cmpOf_ne_gt_iff]
                omega
              have hBC : lexCmp (arr.drop (getl sa (getl inv (i + 1) + 1)))
                  (arr.drop (j + 1)) ≠ Ordering.gt := by
                have h10 := hsacmp (getl inv (i + 1) + 1) (getl inv (j + 1)) hin2lt hjp1lt
                rw [(hinvval (j + 1) hjlt1).2] at h10
                rw [h10, cmpOf_ne_gt_iff]
                omega
              have hsq := lcpLen_le_of_between (arr.drop (i + 1))
                (arr.drop (getl sa (getl inv (i + 1) + 1))) (arr.drop (j + 1)) hAB hBC
              omega
            · have h11 := lcpLen_le_right (arr.drop i) (arr.drop j)
              rw [List.length_drop] at h11
              omega
  obtain ⟨m1, m2, m3, m4⟩ := main arr.length le_rfl
  refine ⟨?_, ?_, ?_, ?_⟩
  · rw [hunfold]
  · rw [hunfold]
    exact m1
  · rw [hunfold]
    exact m2
  · intro t ht1 ht2
    rw [hunfold]
    exact m3 t ht1 ht2 (hvals (t - 1) (by omega))

/-! ### Correctness of the Z loop (`z_array`) -/

theorem le_lcpLen_of_getD {α : Type} [DecidableEq α] [Inhabited α] :
    ∀ (x y : List α) (m : Nat), m ≤ x.length → m ≤ y.length →
      (∀ t, t < m → x.getD t default = y.getD t default) → m ≤ lcpLen x y := by
  intro x
  induction x with
  | nil =>
    intro y m h1 _ _
    simp only [List.length_nil, Nat.le_zero] at h1
    omega
  | cons a as ih =>
    intro y m h1 h2 h
    cases y with
    | nil =>
      simp only [List.length_nil, Nat.le_zero] at h2
      omega
    | cons b bs =>
      cases m with
      | zero => omega
      | succ m' =>
        have hab : a = b := h 0 (by omega)
        subst hab
        rw [lcpLen_cons_same]
        have hih := ih bs m' (by simp at h1; omega) (by simp at h2; omega)
          (fun t ht => by
            have hs := h (t + 1) (by omega)
            rw [getD_cons_succ, getD_cons_succ] at hs
            exact hs)
        omega

theorem extendZ_spec {α : Type} [DecidableEq α] [Inhabited α] (arr : List α)
    (i : Nat) :
    ∀ (fuel k : Nat), k ≤ lcpLen arr (arr.drop i) →
      lcpLen arr (arr.drop i) - k ≤ fuel →
      extendZ arr arr.length i fuel k = lcpLen arr (arr.drop i) := by
  intro fuel
  induction fuel with
  | zero =>
    intro k hk hf
    have hke : k = lcpLen arr (arr.drop i) := by omega
    simpa [extendZ] using hke
  | succ f ih =>
    intro k hk hf
    have hlen2 := lcpLen_le_right arr (arr.drop i)
    rw [List.length_drop] at hlen2
    rcases Nat.eq_or_lt_of_le hk with heq | hlt
    · subst heq
      have hcond : ¬ (i + lcpLen arr (arr.drop i) < arr.length ∧
          arr.getD (i + lcpLen arr (arr.drop i)) default
            = arr.getD (lcpLen arr (arr.drop i)) default) := by
      -- the loop must stop exactly at the true common-prefix length
        rintro ⟨h1, h2⟩
        apply lcpLen_stop arr (arr.drop i) (by omega) (by rw [List.length_drop]; omega)
        rw [getD_drop _ _ _ h1]
        exact h2.symm
      simp only [extendZ]
      rw [if_neg hcond]
    · have hcond : i + k < arr.length ∧
          arr.getD (i + k) default = arr.getD k default := by
        refine ⟨by omega, ?_⟩
        have h6 := lcpLen_getD_eq arr (arr.drop i) k hlt
        rw [getD_drop _ _ _ (by omega)] at h6
        exact h6.symm
      simp only [extendZ]
      rw [if_pos hcond]
      exact ih (k + 1) (by omega) (by omega)

theorem z_array_spec {α : Type} [DecidableEq α] [Inhabited α] (arr : List α)
    (hne : 0 < arr.length) :
    ∃ z, z_array arr = Option.some z ∧ z.length = arr.length ∧
      getl z 0 = arr.length ∧
      (∀ t, 1 ≤ t → t < arr.length → getl z t = lcpLen arr (arr.drop t)) := by
  set F := zBody arr arr.length with hF
  set z0 : List Nat := (List.replicate arr.length 0).set 0 arr.length with hz0
  have hunfold : z_array arr
      = if arr.length = 0 then Option.none
        else Option.some (((List.range' 1 (arr.length - 1)).foldl F (z0, 0, 0)).1) := rfl
  have hz0len : z0.length = arr.length := by
    rw [hz0, List.length_set, List.length_replicate]
  have hz00 : getl z0 0 = arr.length := by
    rw [hz0]
    exact getl_set_self _ _ _ (by rw [List.length_replicate]; omega)
  have hz0t : ∀ t, 1 ≤ t → getl z0 t = 0 := by
    intro t ht
    rw [hz0, getl_set_ne _ _ _ _ (by omega)]
    exact getl_replicate _ _
  have main : ∀ m, m ≤ arr.length - 1 →
      ((List.range' 1 m).foldl F (z0, 0, 0)).1.length = arr.length ∧
      getl ((List.range' 1 m).foldl F (z0, 0, 0)).1 0 = arr.length ∧
      (∀ t, 1 ≤ t → t < 1 + m →
        getl ((List.range' 1 m).foldl F (z0, 0, 0)).1 t = lcpLen arr (arr.drop t)) ∧
      (∀ t, 1 + m ≤ t → t < arr.length →
        getl ((List.range' 1 m).foldl F (z0, 0, 0)).1 t = 0) ∧
      (((List.range' 1 m).foldl F (z0, 0, 0)).2.1 = 0 ∧
          ((List.range' 1 m).foldl F (z0, 0, 0)).2.2 = 0 ∨
        1 ≤ ((List.range' 1 m).foldl F (z0, 0, 0)).2.1 ∧
          ((List.range' 1 m).foldl F (z0, 0, 0)).2.1 < 1 + m ∧
          ((List.range' 1 m).foldl F (z0, 0, 0)).2.2
            = ((List.range' 1 m).foldl F (z0, 0, 0)).2.1
              + lcpLen arr
                  (arr.drop (((List.range' 1 m).foldl F (z0, 0, 0)).2.1))) := by
    intro m
    induction m with
    | zero =>
      intro _
      simp only [List.range'_zero, List.foldl_nil]
      refine ⟨hz0len, hz00, ?_, ?_, Or.inl ⟨by trivial, by trivial⟩⟩
      · intro t ht1 ht2
        exact absurd ht2 (by omega)
      · intro t ht1 ht2
        exact hz0t t (by omega)
    | succ m ih =>
      intro hm1
      obtain ⟨ih1, ih2, ih3, ih4, ihw⟩ := ih (by omega)
      have hsplit : List.range' 1 (m + 1) = List.range' 1 m ++ [1 + m] := by
        rw [List.range'_concat, Nat.one_mul]
      rw [hsplit, List.foldl_append, List.foldl_cons, List.foldl_nil]
      set st := (List.range' 1 m).foldl F (z0, 0, 0) with hst
      set i := 1 + m with hi
      set z := st.1 with hz
      set l := st.2.1 with hl
      set r := st.2.2 with hr
      have hin : i < arr.length := by omega
      have hLile : lcpLen arr (arr.drop i) ≤ arr.length - i := by
        have h0 := lcpLen_le_right arr (arr.drop i)
        rw [List.length_drop] at h0
        exact h0
      have hbody : F st i
          = (if i + extendZ arr arr.length i arr.length
                  (getl (if i ≤ r then z.set i (min (r - i) (getl z (i - l))) else z) i) > r
             then ((if i ≤ r then z.set i (min (r - i) (getl z (i - l))) else z).set i
                     (extendZ arr arr.length i arr.length
                       (getl (if i ≤ r then z.set i (min (r - i) (getl z (i - l))) else z) i)),
                   i,
                   i + extendZ arr arr.length i arr.length
                     (getl (if i ≤ r then z.set i (min (r - i) (getl z (i - l))) else z) i))
             else ((if i ≤ r then z.set i (min (r - i) (getl z (i - l))) else z).set i
                     (extendZ arr arr.length i arr.length
                       (getl (if i ≤ r then z.set i (min (r - i) (getl z (i - l))) else z) i)),
                   l, r)) := rfl
      by_cases hir : i ≤ r
      · rcases ihw with ⟨hl0, hr0⟩ | ⟨hw1, hw2, hw3⟩
        · exfalso
          omega
        · have hLl_le : lcpLen arr (arr.drop l) ≤ arr.length - l := by
            have h0 := lcpLen_le_right arr (arr.drop l)
            rw [List.length_drop] at h0
            exact h0
          have hrle : r ≤ arr.length := by omega
          have hd1 : 1 ≤ i - l := by omega
          have hdi : i - l < i := by omega
          have hzd : getl z (i - l) = lcpLen arr (arr.drop (i - l)) := ih3 (i - l) hd1 hdi
          have hLd_le : lcpLen arr (arr.drop (i - l)) ≤ arr.length - (i - l) := by
            have h0 := lcpLen_le_right arr (arr.drop (i - l))
            rw [List.length_drop] at h0
            exact h0
          have hbox : ∀ t, t < r - l → arr.getD (l + t) default = arr.getD t default := by
            intro t ht
            have htL : t < lcpLen arr (arr.drop l) := by omega
            have h1 := lcpLen_getD_eq arr (arr.drop l) t htL
            rw [getD_drop _ _ _ (by omega)] at h1
            exact h1.symm
          have hvle : min (r - i) (lcpLen arr (arr.drop (i - l)))
              ≤ lcpLen arr (arr.drop i) := by
            apply le_lcpLen_of_getD
            · omega
            · rw [List.length_drop]
              omega
            · intro t ht
              rw [getD_drop _ _ _ (by omega)]
              have ht1 : t < lcpLen arr (arr.drop (i - l)) := by omega
              have h2 := lcpLen_getD_eq arr (arr.drop (i - l)) t ht1
              rw [getD_drop _ _ _ (by omega)] at h2
              have h3 := hbox (i - l + t) (by omega)
              have harith : l + (i - l + t) = i + t := by omega
              rw [harith] at h3
              rw [h2, ← h3]
          have hstart : getl (z.set i (min (r - i) (getl z (i - l)))) i
              = min (r - i) (lcpLen arr (arr.drop (i - l))) := by
            rw [getl_set_self _ _ _ (by rw [ih1]; omega), hzd]
          have hziv : extendZ arr arr.length i arr.length
              (min (r - i) (lcpLen arr (arr.drop (i - l))))
              = lcpLen arr (arr.drop i) :=
            extendZ_spec arr i arr.length _ hvle (by omega)
          rw [if_pos hir, hstart, hziv] at hbody
          by_cases houter : i + lcpLen arr (arr.drop i) > r
          · rw [if_pos houter] at hbody
            have hG1 : (F st i).1
                = (z.set i (min (r - i) (getl z (i - l)))).set i
                    (lcpLen arr (arr.drop i)) := by rw [hbody]
            have hG21 : (F st i).2.1 = i := by rw [hbody]
            have hG22 : (F st i).2.2 = i + lcpLen arr (arr.drop i) := by rw [hbody]
            rw [hG1, hG21, hG22]
            refine ⟨?_, ?_, ?_, ?_, Or.inr ⟨by omega, by omega, rfl⟩⟩
            · rw [List.length_set, List.length_set]
              exact ih1
            · rw [getl_set_ne _ _ _ _ (by omega), getl_set_ne _ _ _ _ (by omega)]
              exact ih2
            · intro t ht1 ht2
              by_cases hti : t = i
              · rw [hti, getl_set_self _ _ _ (by rw [List.length_set, ih1]; omega)]
              · rw [getl_set_ne _ _ _ _ (fun h => hti h.symm),
                  getl_set_ne _ _ _ _ (fun h => hti h.symm)]
                exact ih3 t ht1 (by omega)
            · intro t ht1 ht2
              rw [getl_set_ne _ _ _ _ (by omega), getl_set_ne _ _ _ _ (by omega)]
              exact ih4 t (by omega) ht2
          · rw [if_neg houter] at hbody
            have hG1 : (F st i).1
                = (z.set i (min (r - i) (getl z (i - l)))).set i
                    (lcpLen arr (arr.drop i)) := by rw [hbody]
            have hG21 : (F st i).2.1 = l := by rw [hbody]
            have hG22 : (F st i).2.2 = r := by rw [hbody]
            rw [hG1, hG21, hG22]
            refine ⟨?_, ?_, ?_, ?_, Or.inr ⟨hw1, by omega, hw3⟩⟩
            · rw [List.length_set, List.length_set]
              exact ih1
            · rw [getl_set_ne _ _ _ _ (by omega), getl_set_ne _ _ _ _ (by omega)]
              exact ih2
            · intro t ht1 ht2
              by_cases hti : t = i
              · rw [hti, getl_set_self _ _ _ (by rw [List.length_set, ih1]; omega)]
              · rw [getl_set_ne _ _ _ _ (fun h => hti h.symm),
                  getl_set_ne _ _ _ _ (fun h => hti h.symm)]
                exact ih3 t ht1 (by omega)
            · intro t ht1 ht2
              rw [getl_set_ne _ _ _ _ (by omega), getl_set_ne _ _ _ _ (by omega)]
              exact ih4 t (by omega) ht2
      · have hzi0 : getl z i = 0 := ih4 i (by omega) hin
        rw [if_neg hir, hzi0] at hbody
        have hziv : extendZ arr arr.length i arr.length 0 = lcpLen arr (arr.drop i) :=
          extendZ_spec arr i arr.length 0 (Nat.zero_le _) (by omega)
        rw [hziv] at hbody
        have houter : i + lcpLen arr (arr.drop i) > r := by omega
        rw [if_pos houter] at hbody
        have hG1 : (F st i).1 = z.set i (lcpLen arr (arr.drop i)) := by rw [hbody]
        have hG21 : (F st i).2.1 = i := by rw [hbody]
        have hG22 : (F st i).2.2 = i + lcpLen arr (arr.drop i) := by rw [hbody]
        rw [hG1, hG21, hG22]
        refine ⟨?_, ?_, ?_, ?_, Or.inr ⟨by omega, by omega, rfl⟩⟩
        · rw [List.length_set]
          exact ih1
        · rw [getl_set_ne _ _ _ _ (by omega)]
          exact ih2
        · intro t ht1 ht2
          by_cases hti : t = i
          · rw [hti, getl_set_self _ _ _ (by rw [ih1]; omega)]
          · rw [getl_set_ne _ _ _ _ (fun h => hti h.symm)]
            exact ih3 t ht1 (by omega)
        · intro t ht1 ht2
          rw [getl_set_ne _ _ _ _ (by omega)]
          exact ih4 t (by omega) ht2
  obtain ⟨m1, m2, m3, m4⟩ := main (arr.length - 1) le_rfl
  refine ⟨((List.range' 1 (arr.length - 1)).foldl F (z0, 0, 0)).1, ?_, m1, m2, ?_⟩
  · rw [hunfold, if_neg (by omega)]
  · intro t ht1 ht2
    exact m3 t ht1 (by omega)

/-! ### The claims -/

/-- Claim C1: for every sequence over a totally-ordered alphabet of length
`n`, `suffix_array` returns a sequence of length `n` that is a permutation of
`[0, n)` and, for every `i` in `[0, n-1)`, the suffix starting at
`suffix_array[i]` is lexicographically at most the suffix starting at
`suffix_array[i+1]`. -/
theorem suffix_array_perm_sorted {α : Type} [LinearOrder α] (arr : List α) :
    (suffix_array arr).length = arr.length ∧
    (suffix_array arr).Perm (List.range arr.length) ∧
    (∀ i, i + 1 < arr.length →
      lexCmp (arr.drop (getl (suffix_array arr) i))
        (arr.drop (getl (suffix_array arr) (i + 1))) ≠ Ordering.gt) := by
  obtain ⟨h1, h2, h3⟩ := suffix_array_spec arr
  refine ⟨h1, h2, ?_⟩
  intro i hi
  rw [h3 i (i + 1) (by omega) (by omega), cmpOf_ne_gt_iff]
  omega

/-- Witness for C1 on `"banana"`. -/
theorem suffix_array_perm_sorted_witness :
    (suffix_array ([98, 97, 110, 97, 110, 97] : List Nat)).length
        = ([98, 97, 110, 97, 110, 97] : List Nat).length ∧
    lexCmp (([98, 97, 110, 97, 110, 97] : List Nat).drop
        (getl (suffix_array ([98, 97, 110, 97, 110, 97] : List Nat)) 0))
      (([98, 97, 110, 97, 110, 97] : List Nat).drop
        (getl (suffix_array ([98, 97, 110, 97, 110, 97] : List Nat)) 1))
      ≠ Ordering.gt :=
  ⟨(suffix_array_perm_sorted ([98, 97, 110, 97, 110, 97] : List Nat)).1,
   (suffix_array_perm_sorted ([98, 97, 110, 97, 110, 97] : List Nat)).2.2 0 (by decide)⟩

/-- Claim C2, amended: on the empty sequence the unconditional write
`z[0] = arr.len()` of the Rust code is out of bounds on an empty vector, so
`z_array` is an error (`none` in the embedding), not an empty array. -/
theorem z_array_empty_is_error {α : Type} [DecidableEq α] [Inhabited α]
    (arr : List α) (h : arr.length = 0) : z_array arr = Option.none := by
  have hu : z_array arr
      = if arr.length = 0 then Option.none
        else Option.some (((List.range' 1 (arr.length - 1)).foldl
          (zBody arr arr.length)
          ((List.replicate arr.length 0).set 0 arr.length, 0, 0)).1) := rfl
  rw [hu, if_pos h]

/-- Witness for C2 on the empty list. -/
theorem z_array_empty_is_error_witness :
    ([] : List Nat).length = 0 ∧ z_array ([] : List Nat) = Option.none :=
  ⟨rfl, z_array_empty_is_error ([] : List Nat) rfl⟩

/-- Counterexample to C2 as stated: on the empty sequence `z_array` does not
return the empty array. -/
theorem z_array_empty_not_empty_array :
    z_array ([] : List Nat) ≠ Option.some [] := by
  decide

/-- Claim C3: the LCP array returned by `lcp` has length `n`, its entry 0 is
`0`, and for every `i` in `[1, n)` its entry `i` is the length of the longest
common prefix, computed element-wise, of the suffixes starting at
`suffix_array[i-1]` and `suffix_array[i]`. -/
theorem lcp_array_correct {α : Type} [LinearOrder α] [Inhabited α] (arr : List α) :
    (lcp arr).2.length = arr.length ∧
    getl (lcp arr).2 0 = 0 ∧
    (∀ i, 1 ≤ i → i < arr.length →
      getl (lcp arr).2 i
        = lcpLen (arr.drop (getl (suffix_array arr) (i - 1)))
            (arr.drop (getl (suffix_array arr) i))) := by
  obtain ⟨-, h2, h3, h4⟩ := lcp_spec arr
  exact ⟨h2, h3, h4⟩

/-- Witness for C3 on `"banana"`. -/
theorem lcp_array_correct_witness :
    getl (lcp ([98, 97, 110, 97, 110, 97] : List Nat)).2 2
      = lcpLen (([98, 97, 110, 97, 110, 97] : List Nat).drop
          (getl (suffix_array ([98, 97, 110, 97, 110, 97] : List Nat)) (2 - 1)))
        (([98, 97, 110, 97, 110, 97] : List Nat).drop
          (getl (suffix_array ([98, 97, 110, 97, 110, 97] : List Nat)) 2)) :=
  (lcp_array_correct ([98, 97, 110, 97, 110, 97] : List Nat)).2.2 2
    (by decide) (by decide)

/-- Claim C4: for every non-empty sequence over an equality-comparable
alphabet, `z_array` succeeds and returns a sequence of length `n` with
`z[0] = n` and, for every `i` in `[1, n)`, `z[i]` the length of the longest
common prefix of the full sequence and its suffix at `i`. -/
theorem z_array_correct {α : Type} [DecidableEq α] [Inhabited α] (arr : List α)
    (hne : 0 < arr.length) :
    ∃ z, z_array arr = Option.some z ∧ z.length = arr.length ∧
      getl z 0 = arr.length ∧
      (∀ i, 1 ≤ i → i < arr.length → getl z i = lcpLen arr (arr.drop i)) :=
  z_array_spec arr hne

/-- Witness for C4 on `"anananasso"`. -/
theorem z_array_correct_witness :
    0 < ([97, 110, 97, 110, 97, 110, 97, 115, 115, 111] : List Nat).length ∧
    (∃ z, z_array ([97, 110, 97, 110, 97, 110, 97, 115, 115, 111] : List Nat)
        = Option.some z ∧
      z.length = ([97, 110, 97, 110, 97, 110, 97, 115, 115, 111] : List Nat).length ∧
      getl z 0 = ([97, 110, 97, 110, 97, 110, 97, 115, 115, 111] : List Nat).length ∧
      (∀ i, 1 ≤ i → i < ([97, 110, 97, 110, 97, 110, 97, 115, 115, 111] : List Nat).length →
        getl z i = lcpLen ([97, 110, 97, 110, 97, 110, 97, 115, 115, 111] : List Nat)
          (([97, 110, 97, 110, 97, 110, 97, 115, 115, 111] : List Nat).drop i))) :=
  ⟨by decide, z_array_correct ([97, 110, 97, 110, 97, 110, 97, 115, 115, 111] : List Nat)
    (by decide)⟩

/-- Claim C5: for every built rank table and every two valid non-empty ranges,
`cmp` returns less, equal or greater exactly as the lexicographic comparison
of the two substrings (shorter prefix smaller), including ranges of different
lengths. -/
theorem dbf_cmp_lexicographic {α : Type} [Inhabited α] [LinearOrder α]
    (arr : List α) (d : DBF) (hb : DBF.build arr = Option.some d)
    (l1 r1 l2 r2 : Nat) (h11 : l1 < r1) (h12 : r1 ≤ arr.length)
    (h21 : l2 < r2) (h22 : r2 ≤ arr.length) :
    d.cmp l1 r1 l2 r2 = lexCmp (sliceL arr l1 r1) (sliceL arr l2 r2) :=
  dbf_cmp_eq_lexCmp arr d hb l1 r1 l2 r2 h11 h12 h21 h22

/-- Witness for C5 on `"banana"`, ranges `[1, 4)` and `[0, 2)`. -/
theorem dbf_cmp_lexicographic_witness :
    DBF.cmp ⟨6, [[1, 0, 2, 0, 2, 0], [2, 1, 3, 1, 3, 0],
        [3, 2, 5, 1, 4, 0], [3, 2, 5, 1, 4, 0]]⟩ 1 4 0 2
      = lexCmp (sliceL ([98, 97, 110, 97, 110, 97] : List Nat) 1 4)
          (sliceL ([98, 97, 110, 97, 110, 97] : List Nat) 0 2) :=
  dbf_cmp_lexicographic ([98, 97, 110, 97, 110, 97] : List Nat)
    ⟨6, [[1, 0, 2, 0, 2, 0], [2, 1, 3, 1, 3, 0], [3, 2, 5, 1, 4, 0], [3, 2, 5, 1, 4, 0]]⟩
    (by rfl) 1 4 0 2 (by decide) (by decide) (by decide) (by decide)

/-- Claim C6: for every built rank table, length `len ≥ 1` and starting
positions with `l1 + len ≤ n` and `l2 + len ≤ n`, the representatives of
`[l1, l1+len)` and `[l2, l2+len)` are equal iff the two substrings are
element-wise identical. -/
theorem get_repr_eq_iff_substring_eq {α : Type} [Inhabited α] [LinearOrder α]
    (arr : List α) (d : DBF) (hb : DBF.build arr = Option.some d)
    (len l1 l2 : Nat) (h1 : 1 ≤ len)
    (hA : l1 + len ≤ arr.length) (hB : l2 + len ≤ arr.length) :
    d.get_repr l1 (l1 + len) = d.get_repr l2 (l2 + len)
      ↔ sliceL arr l1 (l1 + len) = sliceL arr l2 (l2 + len) :=
  get_repr_eq_iff_slice arr d hb len l1 l2 h1 hA hB

/-- Witness for C6 on `"banana"`, the two occurrences of `"an"`. -/
theorem get_repr_eq_iff_substring_eq_witness :
    DBF.get_repr ⟨6, [[1, 0, 2, 0, 2, 0], [2, 1, 3, 1, 3, 0],
        [3, 2, 5, 1, 4, 0], [3, 2, 5, 1, 4, 0]]⟩ 1 (1 + 2)
      = DBF.get_repr ⟨6, [[1, 0, 2, 0, 2, 0], [2, 1, 3, 1, 3, 0],
          [3, 2, 5, 1, 4, 0], [3, 2, 5, 1, 4, 0]]⟩ 3 (3 + 2)
      ↔ sliceL ([98, 97, 110, 97, 110, 97] : List Nat) 1 (1 + 2)
          = sliceL ([98, 97, 110, 97, 110, 97] : List Nat) 3 (3 + 2) :=
  get_repr_eq_iff_substring_eq ([98, 97, 110, 97, 110, 97] : List Nat)
    ⟨6, [[1, 0, 2, 0, 2, 0], [2, 1, 3, 1, 3, 0], [3, 2, 5, 1, 4, 0], [3, 2, 5, 1, 4, 0]]⟩
    (by rfl) 2 1 3 (by decide) (by decide) (by decide)

/-- Claim C7: in every built rank table, each stored level's ranks are
bounded by `n - 1` and dense (every value below an attained rank is
attained), and two positions have equal rank at level `h` iff the cyclic
substrings of length `2^h` starting there (indices modulo `n`) are
identical. -/
theorem dbf_level_ranks_dense_iff {α : Type} [Inhabited α] [LinearOrder α]
    (arr : List α) (d : DBF) (hb : DBF.build arr = Option.some d)
    (h : Nat) (hh : h < d.dbf.length) :
    (∀ p, p < arr.length → getl (d.dbf.getD h []) p < arr.length) ∧
    (∀ q, q < arr.length → ∀ v, v ≤ getl (d.dbf.getD h []) q →
      ∃ p, p < arr.length ∧ getl (d.dbf.getD h []) p = v) ∧
    (∀ p q, p < arr.length → q < arr.length →
      (getl (d.dbf.getD h []) p = getl (d.dbf.getD h []) q
        ↔ cyc arr p (2 ^ h) = cyc arr q (2 ^ h))) := by
  obtain ⟨hne, hn, hl2, hok, hup, hint⟩ := build_some_spec arr d hb
  obtain ⟨hlen, hbound, hiso, hdens⟩ := hok h hh
  refine ⟨hbound, hdens, ?_⟩
  intro p q hp hq
  exact rowIso_eq_iff arr (2 ^ h) _ hiso p q hp hq

/-- Witness for C7 on `"banana"` at level 1, positions 1 and 3. -/
theorem dbf_level_ranks_dense_iff_witness :
    getl ((⟨6, [[1, 0, 2, 0, 2, 0], [2, 1, 3, 1, 3, 0],
        [3, 2, 5, 1, 4, 0], [3, 2, 5, 1, 4, 0]]⟩ : DBF).dbf.getD 1 []) 1
      = getl ((⟨6, [[1, 0, 2, 0, 2, 0], [2, 1, 3, 1, 3, 0],
          [3, 2, 5, 1, 4, 0], [3, 2, 5, 1, 4, 0]]⟩ : DBF).dbf.getD 1 []) 3
      ↔ cyc ([98, 97, 110, 97, 110, 97] : List Nat) 1 (2 ^ 1)
          = cyc ([98, 97, 110, 97, 110, 97] : List Nat) 3 (2 ^ 1) :=
  (dbf_level_ranks_dense_iff ([98, 97, 110, 97, 110, 97] : List Nat)
    ⟨6, [[1, 0, 2, 0, 2, 0], [2, 1, 3, 1, 3, 0], [3, 2, 5, 1, 4, 0], [3, 2, 5, 1, 4, 0]]⟩
    (by rfl) 1 (by decide)).2.2 1 3 (by decide) (by decide)

/-- Claim C8, amended: construction always terminates and, because the
doubling loop is a do-while, the table always holds at least two levels:
its levels are `h = 0, ..., max 1 ⌈log₂ n⌉`, one more than claimed when
`n = 1`; the last row is the level-`max 1 ⌈log₂ n⌉` rank row. -/
theorem dbf_level_count {α : Type} [Inhabited α] [LinearOrder α] (arr : List α)
    (hne : 1 ≤ arr.length) :
    ∃ d, DBF.build arr = Option.some d ∧
      d.dbf.length = max 1 (Nat.clog 2 arr.length) + 1 ∧
      d.last_row = d.dbf.getD (max 1 (Nat.clog 2 arr.length)) [] := by
  obtain ⟨d, hb, -, -, -, -, -⟩ := build_spec arr hne
  have hlen := dbf_length_eq arr d hb
  refine ⟨d, hb, hlen, ?_⟩
  have hlr : d.last_row = d.dbf.getD (d.dbf.length - 1) [] := rfl
  rw [hlr, hlen]
  have harith : max 1 (Nat.clog 2 arr.length) + 1 - 1
      = max 1 (Nat.clog 2 arr.length) := by omega
  rw [harith]

/-- Witness for C8 on the one-element sequence. -/
theorem dbf_level_count_witness :
    1 ≤ ([0] : List Nat).length ∧
    (∃ d, DBF.build ([0] : List Nat) = Option.some d ∧
      d.dbf.length = max 1 (Nat.clog 2 ([0] : List Nat).length) + 1 ∧
      d.last_row = d.dbf.getD (max 1 (Nat.clog 2 ([0] : List Nat).length)) []) :=
  ⟨by decide, dbf_level_count ([0] : List Nat) (by decide)⟩

/-- Counterexample to C8 as stated: on a one-element sequence the smallest
`h` with `2^h ≥ n` is `0`, but the table holds two levels, not one. -/
theorem dbf_level_count_counterexample :
    (DBF.build ([0] : List Nat)).map (fun d => d.dbf.length)
      ≠ Option.some (Nat.clog 2 ([0] : List Nat).length + 1) := by
  have h1 : Nat.clog 2 ([0] : List Nat).length = 0 := Nat.clog_one_right 2
  rw [h1]
  decide

/-- Claim C9, amended: the last row of the rank table built over the
sentinel-padded `"banana"` (length 7) is `[4, 3, 6, 2, 5, 1, 0]` — the
claimed `[3, 2, 5, 1, 4, 0]` is the last row of the unpadded table. -/
theorem padded_banana_last_row :
    (DBF.build (([98, 97, 110, 97, 110, 97] : List Nat).map Pad.some
        ++ [Pad.none])).map DBF.last_row
      = Option.some [4, 3, 6, 2, 5, 1, 0] := rfl

/-- Counterexample to C9 as stated: the padded table's last row is not
`[3, 2, 5, 1, 4, 0]`. -/
theorem padded_banana_last_row_counterexample :
    (DBF.build (([98, 97, 110, 97, 110, 97] : List Nat).map Pad.some
        ++ [Pad.none])).map DBF.last_row
      ≠ Option.some [3, 2, 5, 1, 4, 0] := by
  decide

/-- Claim C10: for every built rank table and every `l < r ≤ n`, the accesses
of `get_repr` are in bounds: the level `h = ⌊log₂ (r-l)⌋` is below the number
of stored levels, and both `l` and `(r - 2^h) % n` are below the accessed
row's length. -/
theorem get_repr_accesses_in_bounds {α : Type} [Inhabited α] [LinearOrder α]
    (arr : List α) (d : DBF) (hb : DBF.build arr = Option.some d)
    (l r : Nat) (h1 : l < r) (h2 : r ≤ arr.length) :
    flog2 (r - l) < d.dbf.length ∧
    l < (d.dbf.getD (flog2 (r - l)) []).length ∧
    (r - 2 ^ flog2 (r - l)) % d.n < (d.dbf.getD (flog2 (r - l)) []).length := by
  have hflog : flog2 (r - l) < d.dbf.length :=
    flog2_lt_dbf_length arr d hb (r - l) (by omega) (by omega)
  obtain ⟨hne, hn, hl2, hok, -, -⟩ := build_some_spec arr d hb
  have hrl : (d.dbf.getD (flog2 (r - l)) []).length = arr.length := (hok _ hflog).1
  refine ⟨hflog, by rw [hrl]; omega, ?_⟩
  rw [hrl, hn]
  exact Nat.mod_lt _ (by omega)

/-- Witness for C10 on `"banana"`, the range `[1, 4)`. -/
theorem get_repr_accesses_in_bounds_witness :
    flog2 (4 - 1) < (⟨6, [[1, 0, 2, 0, 2, 0], [2, 1, 3, 1, 3, 0],
        [3, 2, 5, 1, 4, 0], [3, 2, 5, 1, 4, 0]]⟩ : DBF).dbf.length ∧
    1 < ((⟨6, [[1, 0, 2, 0, 2, 0], [2, 1, 3, 1, 3, 0],
        [3, 2, 5, 1, 4, 0], [3, 2, 5, 1, 4, 0]]⟩ : DBF).dbf.getD (flog2 (4 - 1)) []).length ∧
    (4 - 2 ^ flog2 (4 - 1)) % (⟨6, [[1, 0, 2, 0, 2, 0], [2, 1, 3, 1, 3, 0],
        [3, 2, 5, 1, 4, 0], [3, 2, 5, 1, 4, 0]]⟩ : DBF).n
      < ((⟨6, [[1, 0, 2, 0, 2, 0], [2, 1, 3, 1, 3, 0],
          [3, 2, 5, 1, 4, 0], [3, 2, 5, 1, 4, 0]]⟩ : DBF).dbf.getD (flog2 (4 - 1)) []).length :=
  get_repr_accesses_in_bounds ([98, 97, 110, 97, 110, 97] : List Nat)
    ⟨6, [[1, 0, 2, 0, 2, 0], [2, 1, 3, 1, 3, 0], [3, 2, 5, 1, 4, 0], [3, 2, 5, 1, 4, 0]]⟩
    (by rfl) 1 4 (by decide) (by decide)
